import Mathlib

/-!
# Shallow embedding of the swarm-ir compiler core

This file embeds, in Lean, the parts of the swarm-ir Rust sources that the
verified claims are about:

* `src/ty.rs`            — the `Type` sum (here `Ty`, structural equality plays
                           the role of interned pointer equality);
* `src/instr.rs`         — instruction kinds, blocks, functions, metadata;
* `src/module.rs`        — modules, function definitions, globals;
* `src/numerics.rs`      — `BitWidthSign`, `type_to_bws`, `emit_numeric_instr`;
* `src/abi.rs`           — sizes, alignments and the struct padding algorithm;
* `src/emit.rs`          — the global function table and two lowering arms;
* `src/verify.rs`        — the stack/type verifier;
* `src/cf_verify.rs`     — the control-flow verifier;
* `src/passes/instr_rewrite.rs` — the splice (instruction rewrite) pass.

Machine integers are modelled as `Nat`/`Int` with explicit `% 2^32` where the
Rust code relies on `u32`/`i32` casts.  Rust panics (`unwrap`, `unreachable`,
index out of bounds, integer overflow in debug) are modelled by explicit
`panicked` outcomes or `Option` results, and Rust `Result` by explicit error
outcomes.  Hash maps keyed by small ids are modelled as association lists
(lookups only ever see distinct keys, which theorems track by `Nodup`
hypotheses where needed).
-/

namespace SwarmIR

/-! ## Types (`src/ty.rs`)

`Ty<'ctx>` in the source is an interned pointer; interning makes pointer
equality coincide with structural equality, so `Ty` here is the plain
structural tree and `=` plays the role of `Intern` equality. -/

inductive Ty where
  | int8
  | uint8
  | int16
  | uint16
  | int32
  | uint32
  | float32
  | func (args : List Ty) (ret : List Ty)
  | ptr
  | struct (fields : List Ty)

namespace Ty

/- Structural equality test for `Ty` (the nested `List` fields prevent a
derived instance; decidability is established below). -/
mutual

def beq : Ty → Ty → Bool
  | .int8, .int8 => true
  | .uint8, .uint8 => true
  | .int16, .int16 => true
  | .uint16, .uint16 => true
  | .int32, .int32 => true
  | .uint32, .uint32 => true
  | .float32, .float32 => true
  | .func a r, .func a' r' => beqList a a' && beqList r r'
  | .ptr, .ptr => true
  | .struct f, .struct f' => beqList f f'
  | _, _ => false

def beqList : List Ty → List Ty → Bool
  | [], [] => true
  | x :: xs, y :: ys => beq x y && beqList xs ys
  | _, _ => false

end

mutual

theorem beq_refl : ∀ (a : Ty), beq a a = true
  | .int8 => rfl
  | .uint8 => rfl
  | .int16 => rfl
  | .uint16 => rfl
  | .int32 => rfl
  | .uint32 => rfl
  | .float32 => rfl
  | .func a r => by simp [beq, beqList_refl a, beqList_refl r]
  | .ptr => rfl
  | .struct f => by simp [beq, beqList_refl f]

theorem beqList_refl : ∀ (l : List Ty), beqList l l = true
  | [] => rfl
  | x :: xs => by simp [beqList, beq_refl x, beqList_refl xs]

end

mutual

theorem eq_of_beq : ∀ (a b : Ty), beq a b = true → a = b
  | .int8, b, h => by cases b <;> first | rfl | simp [beq] at h
  | .uint8, b, h => by cases b <;> first | rfl | simp [beq] at h
  | .int16, b, h => by cases b <;> first | rfl | simp [beq] at h
  | .uint16, b, h => by cases b <;> first | rfl | simp [beq] at h
  | .int32, b, h => by cases b <;> first | rfl | simp [beq] at h
  | .uint32, b, h => by cases b <;> first | rfl | simp [beq] at h
  | .float32, b, h => by cases b <;> first | rfl | simp [beq] at h
  | .ptr, b, h => by cases b <;> first | rfl | simp [beq] at h
  | .func a r, .func a' r', h => by
      simp only [beq, Bool.and_eq_true] at h
      rw [eqList_of_beqList a a' h.1, eqList_of_beqList r r' h.2]
  | .func _ _, .int8, h => by simp [beq] at h
  | .func _ _, .uint8, h => by simp [beq] at h
  | .func _ _, .int16, h => by simp [beq] at h
  | .func _ _, .uint16, h => by simp [beq] at h
  | .func _ _, .int32, h => by simp [beq] at h
  | .func _ _, .uint32, h => by simp [beq] at h
  | .func _ _, .float32, h => by simp [beq] at h
  | .func _ _, .ptr, h => by simp [beq] at h
  | .func _ _, .struct _, h => by simp [beq] at h
  | .struct f, .struct f', h => by
      simp only [beq] at h
      rw [eqList_of_beqList f f' h]
  | .struct _, .int8, h => by simp [beq] at h
  | .struct _, .uint8, h => by simp [beq] at h
  | .struct _, .int16, h => by simp [beq] at h
  | .struct _, .uint16, h => by simp [beq] at h
  | .struct _, .int32, h => by simp [beq] at h
  | .struct _, .uint32, h => by simp [beq] at h
  | .struct _, .float32, h => by simp [beq] at h
  | .struct _, .ptr, h => by simp [beq] at h
  | .struct _, .func _ _, h => by simp [beq] at h

theorem eqList_of_beqList : ∀ (l l' : List Ty), beqList l l' = true → l = l'
  | [], [], _ => rfl
  | [], _ :: _, h => by simp [beqList] at h
  | _ :: _, [], h => by simp [beqList] at h
  | x :: xs, y :: ys, h => by
      simp only [beqList, Bool.and_eq_true] at h
      rw [eq_of_beq x y h.1, eqList_of_beqList xs ys h.2]

end

instance : DecidableEq Ty := fun a b =>
  decidable_of_iff (beq a b = true) ⟨eq_of_beq a b, fun h => h ▸ beq_refl a⟩

def is_int : Ty → Bool
  | .int32 | .uint32 | .int16 | .uint16 | .int8 | .uint8 => true
  | _ => false

def is_float : Ty → Bool
  | .float32 => true
  | _ => false

def is_func : Ty → Bool
  | .func _ _ => true
  | _ => false

def is_ptr : Ty → Bool
  | .ptr => true
  | _ => false

def is_struct : Ty → Bool
  | .struct _ => true
  | _ => false

end Ty

/-! ## Numeric descriptors (`src/numerics.rs`) -/

inductive BitWidthSign where
  | s32
  | u32
  | s16
  | u16
  | s8
  | u8
deriving DecidableEq

def BitWidthSign.is_unsigned : BitWidthSign → Bool
  | .u32 | .u16 | .u8 => true
  | _ => false

/-- `type_to_bws` from `src/numerics.rs`: the BWS descriptor of a type,
`none` when it is not an integer type. -/
def type_to_bws : Ty → Option BitWidthSign
  | .int32 => some .s32
  | .uint32 => some .u32
  | .int16 => some .s16
  | .uint16 => some .u16
  | .int8 => some .s8
  | .uint8 => some .u8
  | _ => none

/-- `do_int_types_match` from `src/numerics.rs` (both arguments are integer
types whenever the verifier calls it). -/
def do_int_types_match : Ty → Ty → Bool
  | .int32, .int32 => true
  | .uint32, .uint32 => true
  | .int16, .int16 => true
  | .uint16, .uint16 => true
  | .int8, .int8 => true
  | .uint8, .uint8 => true
  | _, _ => false

/-! ## Instructions, blocks, functions (`src/instr.rs`) -/

/-- `Cmp` from `src/instr.rs`. -/
inductive Cmp where
  | eq | ne | lt | le | gt | ge
deriving DecidableEq

/-- `BlockId` is a newtype over `usize`. -/
abbrev BlockId := Nat

/-- `BlockTag` from `src/instr.rs`. -/
inductive BlockTag where
  | undefined
  | main
  | ifElse
  | loop
deriving DecidableEq

/-- `InstrK<'ctx>` from `src/instr.rs`.  The `f32` payload of `LdFloat` and
the payload of `Intrinsic` are irrelevant to every verified claim (no pass
inspects them) and are omitted; `LdInt`'s `u32` payload is a `Nat`. -/
inductive InstrK where
  | ldInt (val : Nat) (ty : Ty)
  | ldFloat
  | iAdd
  | iSub
  | iMul
  | iDiv
  | fAdd
  | fSub
  | fMul
  | fDiv
  | itof
  | ftoi (int_ty : Ty)
  | iCmp (cmp : Cmp)
  | fCmp (cmp : Cmp)
  | not
  | bitAnd
  | bitOr
  | iConv (target : Ty)
  | callDirect (func_name : String)
  | ldLocal (idx : Nat)
  | stLocal (idx : Nat)
  | ldGlobalFunc (func_name : String)
  | callIndirect
  | bitcast (target : Ty)
  | ifElse (then_b : BlockId) (else_b : Option BlockId)
  | read (ty : Ty)
  | write (ty : Ty)
  | offset (ty : Ty)
  | getFieldPtr (struct_ty : Ty) (field_idx : Nat)
  | discard
  | ret
  | memorySize
  | memoryGrow
  | ldGlobal (name : String)
  | stGlobal (name : String)
  | fail
  | loop (body : BlockId)
  | brk
  | intrinsic
deriving DecidableEq

/-- The metadata channel (`src/metadata.rs`), restricted to the fixed key set
actually used by the passes (`ty`, `from`, `bws`, `parent`,
`innermost_loop_distance`).  The dynamically-typed keyed dictionary is modelled
as a record of optional entries, one per known key. -/
structure Metadata where
  ty : Option Ty := none
  from_ty : Option Ty := none
  bws : Option BitWidthSign := none
  parent : Option BlockId := none
  innermost_loop_distance : Option Nat := none
deriving DecidableEq

def Metadata.empty : Metadata := {}

/-- `Instr<'ctx>` from `src/instr.rs`. -/
structure Instr where
  kind : InstrK
  meta : Metadata := {}
deriving DecidableEq

def Instr.new (k : InstrK) : Instr := { kind := k }

/-- `InstrBlock<'ctx>` from `src/instr.rs`.  `block_ty` is always a `func`
type with empty arguments (asserted by `InstrBlock::new`). -/
structure InstrBlock where
  idx : BlockId
  tag : BlockTag
  body : List Instr
  block_ty : Ty
  meta : Metadata := {}
deriving DecidableEq

/-- `InstrBlock::returns`.  The non-`func` arm is `unreachable!()` in the
source (blocks are constructed with function types only); it is totalised
as `[]`. -/
def InstrBlock.returns (b : InstrBlock) : List Ty :=
  match b.block_ty with
  | .func _ ret => ret
  | _ => []

/-- `Function<'ctx>` from `src/instr.rs`.  The `HashMap<BlockId, InstrBlock>`
is an association-by-`idx` list (keys are the `idx` fields). -/
structure Function where
  name : String
  ty : Ty
  blocks : List InstrBlock
  all_locals_types : List Ty
  idx : Nat
deriving DecidableEq

namespace Function

def get_block (f : Function) (id : BlockId) : Option InstrBlock :=
  f.blocks.find? (fun b => b.idx = id)

def ret_tys (f : Function) : List Ty :=
  match f.ty with
  | .func _ ret => ret
  | _ => []

def arg_tys (f : Function) : List Ty :=
  match f.ty with
  | .func args _ => args
  | _ => []

def local_ty (f : Function) (idx : Nat) : Option Ty :=
  f.all_locals_types.get? idx

def arg_count (f : Function) : Nat := f.arg_tys.length

def ret_count (f : Function) : Nat := f.ret_tys.length

def is_local_an_arg (f : Function) (n : Nat) : Bool := n < f.arg_count

end Function

/-! ## Modules (`src/module.rs`) -/

/-- `ExternFunction<'ctx>`. -/
structure ExternFunction where
  name : String
  ty : Ty
  idx : Nat
deriving DecidableEq

/-- `FuncDef<'ctx>`. -/
inductive FuncDef where
  | local (f : Function)
  | ext (e : ExternFunction)
deriving DecidableEq

namespace FuncDef

def name : FuncDef → String
  | .local f => f.name
  | .ext e => e.name

def ty : FuncDef → Ty
  | .local f => f.ty
  | .ext e => e.ty

def idx : FuncDef → Nat
  | .local f => f.idx
  | .ext e => e.idx

def arg_tys : FuncDef → List Ty
  | .local f => f.arg_tys
  | .ext e => match e.ty with
      | .func args _ => args
      | _ => []

def ret_tys : FuncDef → List Ty
  | .local f => f.ret_tys
  | .ext e => match e.ty with
      | .func _ ret => ret
      | _ => []

def is_local : FuncDef → Bool
  | .local _ => true
  | .ext _ => false

end FuncDef

/-- `GlobalValueInit` (the `f32` payload of `ConstFloat` is irrelevant to all
claims and omitted). -/
inductive GlobalValueInit where
  | constInt (v : Int)
  | constFloat
deriving DecidableEq

/-- `Global<'ctx>`. -/
structure Global where
  name : String
  ty : Ty
  value : GlobalValueInit
  idx : Nat
deriving DecidableEq

/-- `WasmModuleConf`. -/
structure WasmModuleConf where
  initial_memory_size : Nat := 1
  use_saturating_ftoi : Bool := true
deriving DecidableEq

/-- `Module<'ctx>`.  The `IndexMap`s keyed by name are insertion-ordered
association lists; the type interner is irrelevant here because `Ty` equality
is structural. -/
structure Module where
  functions : List FuncDef
  globals : List Global
  conf : WasmModuleConf := {}
deriving DecidableEq

namespace Module

def get_function (m : Module) (name : String) : Option FuncDef :=
  m.functions.find? (fun fd => fd.name = name)

def get_global (m : Module) (name : String) : Option Global :=
  m.globals.find? (fun g => g.name = name)

def function_count (m : Module) : Nat := m.functions.length

end Module

/-- Generic association-list lookup (model of `HashMap` lookups). -/
def assoc_get {K V : Type} [DecidableEq K] (l : List (K × V)) (k : K) : Option V :=
  (l.find? (fun p => p.1 = k)).map (fun p => p.2)


/-! ## Backend (wasm) value types, instructions, ABI (`src/abi.rs`) -/

/-- `wasm::ValType`, restricted to the two value types the ABI produces. -/
inductive WValType where
  | i32
  | f32
deriving DecidableEq

/-- `wasm::MemArg`. -/
structure MemArg where
  offset : Nat
  align : Nat
  memory_index : Nat
deriving DecidableEq

/-- The subset of `wasm_encoder::Instruction` emitted by the embedded lowering
functions.  `i32Const` carries the Rust `i32` value as an `Int`. -/
inductive WInstr where
  | i32Const (n : Int)
  | i32Add
  | i32Sub
  | i32Mul
  | i32DivU
  | i32DivS
  | i32And
  | i32Shl
  | i32ShrS
  | f32ConvertI32U
  | f32ConvertI32S
  | i32TruncF32U
  | i32TruncF32S
  | i32TruncSatF32U
  | i32TruncSatF32S
  | i32Eq
  | i32Neq
  | i32LtU
  | i32LtS
  | i32LeU
  | i32LeS
  | i32GtU
  | i32GtS
  | i32GeU
  | i32GeS
  | i32Load (m : MemArg)
  | i32Load16U (m : MemArg)
  | i32Load16S (m : MemArg)
  | i32Load8U (m : MemArg)
  | i32Load8S (m : MemArg)
  | i32Store (m : MemArg)
  | i32Store16 (m : MemArg)
  | i32Store8 (m : MemArg)
deriving DecidableEq

/-- `Wasm32Abi::compile_type` from `src/abi.rs`; the `Struct` arm is
`unreachable!()` in the source, modelled as `none`. -/
def compile_type : Ty → Option WValType
  | .int32 | .uint32 | .int16 | .uint16 | .int8 | .uint8 => some .i32
  | .float32 => some .f32
  | .func _ _ => some .i32
  | .ptr => some .i32
  | .struct _ => none

/- `struct_calc_algorithm`, `Wasm32Abi::type_sizeof` and
`Wasm32Abi::type_alignment` from `src/abi.rs`.  The source's `for` loop over
the fields (mutating `size` and `align`) is the accumulator recursion
`struct_calc_algorithm fields size align`; the source calls it with `size = 0`,
`align = 0`. -/
mutual

def type_sizeof : Ty → Nat
  | .int8 | .uint8 => 1
  | .int16 | .uint16 => 2
  | .int32 | .uint32 => 4
  | .float32 => 4
  | .func _ _ => 4
  | .ptr => 4
  | .struct fields => (struct_calc_algorithm fields 0 0).2.1

def type_alignment : Ty → Nat
  | .int8 | .uint8 => 0
  | .int16 | .uint16 => 1
  | .int32 | .uint32 => 2
  | .float32 => 2
  | .func _ _ => 2
  | .ptr => 2
  | .struct fields => (struct_calc_algorithm fields 0 0).2.2

def struct_calc_algorithm : List Ty → Nat → Nat → (List Nat × Nat × Nat)
  | [], size, align => ([], size, align)
  | fld :: rest, size, align =>
      let field_alignment := 2 ^ type_alignment fld
      let size1 := if size % field_alignment ≠ 0
        then size + (field_alignment - size % field_alignment)
        else size
      let size2 := size1 + type_sizeof fld
      let align2 := if type_alignment fld > align then type_alignment fld else align
      let r := struct_calc_algorithm rest size2 align2
      (size1 :: r.1, r.2)

end

/-- `Wasm32Abi::struct_field_offset`: indexes the offsets vector of the
padding algorithm.  The Rust indexing panics when `field_n` is out of bounds,
modelled by `none`. -/
def struct_field_offset (struct_fields : List Ty) (field_n : Nat) : Option Nat :=
  (struct_calc_algorithm struct_fields 0 0).1.get? field_n

/-! ## Numeric lowering (`src/numerics.rs`) -/

/-- `memarg` helper from `src/numerics.rs`. -/
def memarg (ty : Ty) : MemArg :=
  { offset := 0, align := type_alignment ty, memory_index := 0 }

/-- The `and` idiom helper from `src/numerics.rs`. -/
def and_idiom (inner : WInstr) (n : Int) : List WInstr :=
  [inner, .i32Const n, .i32And]

/-- The `shift` idiom helper from `src/numerics.rs`. -/
def shift_idiom (inner : WInstr) (n : Int) : List WInstr :=
  [inner, .i32Const n, .i32Shl, .i32Const n, .i32ShrS]

/-- The shared `IAdd | ISub | IMul` arm of `emit_numeric_instr` (the source
computes `core` from the kind and then matches on `bws`; here the arm is
factored out with `core` as a parameter). -/
def iadd_isub_imul_arm (core : WInstr) : BitWidthSign → List WInstr
  | .s32 | .u32 => [core]
  | .u16 => and_idiom core 65536
  | .s16 => shift_idiom core 16
  | .u8 => and_idiom core 255
  | .s8 => shift_idiom core 24

/-- `emit_numeric_instr` from `src/numerics.rs`.  The final
`_ => unreachable!()` arm and the `type_to_bws(*target).unwrap()` panic in the
`IConv` arm are modelled as `none`. -/
def emit_numeric_instr (kind : InstrK) (bws : BitWidthSign)
    (use_saturating_ftoi : Bool) : Option (List WInstr) :=
  match kind with
  | .iAdd => some (iadd_isub_imul_arm .i32Add bws)
  | .iSub => some (iadd_isub_imul_arm .i32Sub bws)
  | .iMul => some (iadd_isub_imul_arm .i32Mul bws)
  | .iDiv => some (match bws with
      | .u32 | .u16 | .u8 => [.i32DivU]
      | .s32 => [.i32DivS]
      | .s16 => shift_idiom .i32DivS 16
      | .s8 => shift_idiom .i32DivS 24)
  | .itof => some (if bws.is_unsigned
      then [.f32ConvertI32U]
      else [.f32ConvertI32S])
  | .ftoi _ => some (if bws.is_unsigned
      then (if use_saturating_ftoi then [.i32TruncSatF32U] else [.i32TruncF32U])
      else (if use_saturating_ftoi then [.i32TruncSatF32S] else [.i32TruncF32S]))
  | .iCmp c => some (match c with
      | .eq => [.i32Eq]
      | .ne => [.i32Neq]
      | .lt => if bws.is_unsigned then [.i32LtU] else [.i32LtS]
      | .le => if bws.is_unsigned then [.i32LeU] else [.i32LeS]
      | .gt => if bws.is_unsigned then [.i32GtU] else [.i32GtS]
      | .ge => if bws.is_unsigned then [.i32GeU] else [.i32GeS])
  | .read ty => some (match bws with
      | .u32 | .s32 => [.i32Load (memarg ty)]
      | .u16 => [.i32Load16U (memarg ty)]
      | .s16 => [.i32Load16S (memarg ty)]
      | .u8 => [.i32Load8U (memarg ty)]
      | .s8 => [.i32Load8S (memarg ty)])
  | .write ty => some (match bws with
      | .u32 | .s32 => [.i32Store (memarg ty)]
      | .u16 | .s16 => [.i32Store16 (memarg ty)]
      | .u8 | .s8 => [.i32Store8 (memarg ty)])
  | .iConv target =>
      match type_to_bws target with
      | none => none
      | some tbws =>
        some (match tbws with
          | .s32 | .u32 => []
          | .s16 => match bws with
              | .u16 | .u32 | .s32 =>
                  [.i32Const 16, .i32Shl, .i32Const 16, .i32ShrS]
              | .s16 | .u8 | .s8 => []
          | .u16 => match bws with
              | .s8 | .s16 | .u32 | .s32 => [.i32Const 65536, .i32And]
              | .u8 | .u16 => []
          | .s8 => match bws with
              | .s32 | .u32 | .s16 | .u16 | .u8 =>
                  [.i32Const 24, .i32Shl, .i32Const 24, .i32ShrS]
              | .s8 => []
          | .u8 => match bws with
              | .s32 | .u32 | .s16 | .u16 | .s8 => [.i32Const 255, .i32And]
              | .u8 => [])
  | _ => none

/-! ## Emitter pieces (`src/emit.rs`) -/

/-- `wasm::TableType` (funcref element type is implicit: the emitter only ever
creates the one funcref table). -/
structure WTableType where
  minimum : Nat
  maximum : Option Nat
deriving DecidableEq

/-- The active element segment produced for the global function table:
table index, offset expression, and the function indices. -/
structure WElemSegment where
  table : Option Nat
  offset_expr : WInstr
  functions : List Nat
deriving DecidableEq

/-- `WasmEmitter::emit_global_function_table` from `src/emit.rs`: a table of
size `function_count + 1` and an active element segment at offset 1 listing
the function indices `0 .. function_count` in order. -/
def emit_global_function_table (m : Module) : WTableType × WElemSegment :=
  let table_length := m.function_count + 1
  ({ minimum := table_length, maximum := some table_length },
   { table := some 0,
     offset_expr := .i32Const 1,
     functions := List.range m.function_count })

/-- The `InstrK::LdGlobalFunc` arm of `WasmEmitter::compile_block`:
`I32Const(func_idx + 1)`.  The `get_function(..).unwrap()` panic is `none`;
the `try_into::<i32>().unwrap()` panic for indices above `i32::MAX` is also
`none`. -/
def ld_global_func_lowering (m : Module) (func_name : String) :
    Option (List WInstr) :=
  match m.get_function func_name with
  | none => none
  | some fd =>
      if fd.idx + 1 ≤ 2147483647
      then some [.i32Const (fd.idx + 1 : Nat)]
      else none

/-- The `InstrK::GetFieldPtr` arm of `WasmEmitter::compile_block`: looks up
the field's byte offset (panicking when the offsets vector is too short,
modelled as `none`) and emits an addition unless the offset is zero. -/
def get_field_ptr_lowering (struct_fields : List Ty) (field_idx : Nat) :
    Option (List WInstr) :=
  match struct_field_offset struct_fields field_idx with
  | none => none
  | some field_offset =>
      if field_offset ≠ 0
      then some [.i32Const (field_offset : Nat), .i32Add]
      else some []

/-! ## The stack/type verifier (`src/verify.rs`)

The operand stack is a Rust `Vec` pushed/popped at its end; it is modelled as
a `List Ty` whose *last* element is the top of the stack, so that
`stack.push(t)` is `stack ++ [t]` and the end-of-block
`stack.iter().zip(returns)` is literally `stack.zip returns`. -/

/-- `VerifyError<'ctx>` from `src/verify.rs`. -/
inductive VerifyError where
  | generalError
  | stackUnderflow
  | invalidType (expected : Ty) (actual : Ty) (reason : String)
  | undefinedFunctionCall (func_name : String)
  | outOfBoundsLocalIndex
  | invalidTypeCallIndirect
  | invalidBlockType (block : BlockId) (expected : List Ty) (actual : List Ty)
  | invalidBlockId
  | unexpectedStructType (whr : String)
  | getFieldPtrExpectedStructType
  | outOfBoundsStructIndex
  | undefinedGlobal (name : String)
  | integerSizeMismatch (left : Ty) (right : Ty)
  | constIntOverflow (value : Nat) (ty : Ty)
  | argumentStore (idx : Nat)
deriving DecidableEq

/-- `VerifierMutInfo<'ctx>`: the three maps keyed by `(BlockId, usize)` that
`Verifier::verify_block` fills in (`HashMap` inserts modelled by consing;
each key is inserted at most once per run). -/
structure VInfo where
  call_indirect_function_types : List ((BlockId × Nat) × Ty) := []
  bitcast_source_types : List ((BlockId × Nat) × Ty) := []
  numeric_instrs_data : List ((BlockId × Nat) × BitWidthSign) := []
deriving DecidableEq

def VInfo.empty : VInfo := {}

/-- `Vec::pop` on the operand stack: removes and returns the *last* element. -/
def stack_pop : List Ty → Option (Ty × List Ty)
  | [] => none
  | [t] => some (t, [])
  | x :: y :: rest =>
      match stack_pop (y :: rest) with
      | some (t, r) => some (t, x :: r)
      | none => none

/-- The Rust `*val as i32` reinterpretation of a `u32` constant. -/
def as_i32 (v : Nat) : Int :=
  if v % 2 ^ 32 < 2 ^ 31 then ((v % 2 ^ 32 : Nat) : Int)
  else ((v % 2 ^ 32 : Nat) : Int) - 2 ^ 32

/-- The integer-range check of the `InstrK::LdInt` arm of
`Verifier::verify_block` (`some true` = overflow error, `some false` = in
range, `none` = the `unreachable!()` arm for non-integer types). -/
def ld_int_overflow (v : Nat) : Ty → Option Bool
  | .int8 => some (decide (as_i32 v > 127) || decide (as_i32 v < -128))
  | .uint8 => some (decide (as_i32 v > 255))
  | .int16 => some (decide (as_i32 v > 32767) || decide (as_i32 v < -32768))
  | .uint16 => some (decide (as_i32 v > 65535))
  | .int32 | .uint32 => some false
  | _ => none

/-- Popping and checking call arguments (the `for &arg in func.arg_tys()`
loops of the `CallDirect` and `CallIndirect` arms). -/
def pop_args (reason : String) : List Ty → List Ty → Except VerifyError (List Ty)
  | [], stack => .ok stack
  | arg :: rest, stack =>
      match stack_pop stack with
      | none => .error .stackUnderflow
      | some (val, stack1) =>
          if arg ≠ val then .error (.invalidType arg val reason)
          else pop_args reason rest stack1

/-- Outcome of one instruction of `Verifier::verify_block`:
`next` continues the loop, `finished` is the early `return Ok(())` of the
`Fail` arm, `panicked` models `unreachable!()`/`unwrap` panics and the
instruction kinds this snapshot of `verify.rs` has no match arm for
(`Not`, `BitAnd`, `BitOr`, `Break`). -/
inductive StepRes where
  | err (e : VerifyError)
  | next (stack : List Ty) (info : VInfo)
  | finished (info : VInfo)
  | panicked
deriving DecidableEq

/-- One iteration of the instruction loop of `Verifier::verify_block`
(block id `bid`, instruction index `i`). -/
def instr_step (m : Module) (f : Function) (bid : BlockId) (i : Nat)
    (stack : List Ty) (info : VInfo) : InstrK → StepRes
  | .ldInt val ty =>
      if !ty.is_int then
        .err (.invalidType .int32 ty "LdInt instruction")
      else
        match ld_int_overflow val ty with
        | none => .panicked
        | some true => .err (.constIntOverflow val ty)
        | some false => .next (stack ++ [ty]) info
  | .ldFloat => .next (stack ++ [.float32]) info
  | k@(.iAdd) | k@(.iSub) | k@(.iMul) | k@(.iDiv) | k@(.iCmp _) =>
      match stack_pop stack with
      | none => .err .stackUnderflow
      | some (lhs, stack1) =>
          match stack_pop stack1 with
          | none => .err .stackUnderflow
          | some (rhs, stack2) =>
              if !lhs.is_int then
                .err (.invalidType (if rhs.is_int then rhs else .int32) lhs
                  "Integer numeric operation")
              else if !rhs.is_int then
                .err (.invalidType (if lhs.is_int then lhs else .int32) rhs
                  "Integer numeric operation")
              else if !do_int_types_match lhs rhs then
                .err (.integerSizeMismatch lhs rhs)
              else
                match type_to_bws lhs with
                | none => .panicked
                | some bws =>
                    let info' := { info with
                      numeric_instrs_data :=
                        ((bid, i), bws) :: info.numeric_instrs_data }
                    let result_ty := match k with
                      | .iCmp _ => Ty.int32
                      | _ => lhs
                    .next (stack2 ++ [result_ty]) info'
  | .fAdd | .fSub | .fMul | .fDiv =>
      match stack_pop stack with
      | none => .err .stackUnderflow
      | some (lhs, stack1) =>
          match stack_pop stack1 with
          | none => .err .stackUnderflow
          | some (rhs, stack2) =>
              match lhs, rhs with
              | .float32, .float32 => .next (stack2 ++ [.float32]) info
              | .float32, _ =>
                  .err (.invalidType .float32 rhs "Integer arithmetic operation")
              | _, _ =>
                  .err (.invalidType .float32 lhs "Integer arithmetic operation")
  | .fCmp _ =>
      match stack_pop stack with
      | none => .err .stackUnderflow
      | some (lhs, stack1) =>
          match stack_pop stack1 with
          | none => .err .stackUnderflow
          | some (rhs, stack2) =>
              match lhs, rhs with
              | .float32, .float32 => .next (stack2 ++ [.int32]) info
              | .float32, _ =>
                  .err (.invalidType .float32 rhs "Integer arithmetic operation")
              | _, _ =>
                  .err (.invalidType .float32 lhs "Integer arithmetic operation")
  | .itof =>
      match stack_pop stack with
      | none => .err .stackUnderflow
      | some (val, stack1) =>
          if !val.is_int then
            .err (.invalidType .int32 val "Itof instruction")
          else
            match type_to_bws val with
            | none => .panicked
            | some bws =>
                .next (stack1 ++ [.float32])
                  { info with numeric_instrs_data :=
                      ((bid, i), bws) :: info.numeric_instrs_data }
  | .ftoi int_ty =>
      match stack_pop stack with
      | none => .err .stackUnderflow
      | some (val, stack1) =>
          if !val.is_float then
            .err (.invalidType .float32 val "Itof instruction")
          else if !int_ty.is_int then
            .err (.invalidType .int32 int_ty "Itof instruction target type")
          else
            match type_to_bws int_ty with
            | none => .panicked
            | some bws =>
                .next (stack1 ++ [int_ty])
                  { info with numeric_instrs_data :=
                      ((bid, i), bws) :: info.numeric_instrs_data }
  | .iConv target =>
      match stack_pop stack with
      | none => .err .stackUnderflow
      | some (val, stack1) =>
          if !val.is_int then
            .err (.invalidType .int32 val "IConv instruction")
          else if !target.is_int then
            .err (.invalidType .int32 target "IConv instruction target type")
          else
            match type_to_bws val with
            | none => .panicked
            | some bws =>
                .next (stack1 ++ [target])
                  { info with numeric_instrs_data :=
                      ((bid, i), bws) :: info.numeric_instrs_data }
  | .callDirect func_name =>
      match m.get_function func_name with
      | none => .err (.undefinedFunctionCall func_name)
      | some fd =>
          match pop_args "Function call argument" fd.arg_tys stack with
          | .error e => .err e
          | .ok stack1 => .next (stack1 ++ fd.ret_tys) info
  | .ldLocal idx =>
      match f.local_ty idx with
      | none => .err .outOfBoundsLocalIndex
      | some loc_ty => .next (stack ++ [loc_ty]) info
  | .stLocal idx =>
      match stack_pop stack with
      | none => .err .stackUnderflow
      | some (val, stack1) =>
          match f.local_ty idx with
          | none => .err .outOfBoundsLocalIndex
          | some loc_ty =>
              if loc_ty ≠ val then
                .err (.invalidType loc_ty val "Local store")
              else if f.is_local_an_arg idx then
                .err (.argumentStore idx)
              else .next stack1 info
  | .ldGlobalFunc func_name =>
      match m.get_function func_name with
      | none => .err (.undefinedFunctionCall func_name)
      | some fd => .next (stack ++ [fd.ty]) info
  | .callIndirect =>
      match stack_pop stack with
      | none => .err .stackUnderflow
      | some (fty, stack1) =>
          match fty with
          | .func args ret =>
              match pop_args "Indirect function call argument" args stack1 with
              | .error e => .err e
              | .ok stack2 =>
                  .next (stack2 ++ ret)
                    { info with call_indirect_function_types :=
                        ((bid, i), Ty.func args ret) ::
                          info.call_indirect_function_types }
          | _ => .err .invalidTypeCallIndirect
  | .bitcast target =>
      match stack_pop stack with
      | none => .err .stackUnderflow
      | some (val, stack1) =>
          -- the source's match accepts every (source, target) pair
          .next (stack1 ++ [target])
            { info with bitcast_source_types :=
                ((bid, i), val) :: info.bitcast_source_types }
  | .ifElse then_b else_b =>
      match stack_pop stack with
      | none => .err .stackUnderflow
      | some (cond, stack1) =>
          if !cond.is_int then
            .err (.invalidType .int32 cond "If condition")
          else
            match f.get_block then_b with
            | none => .err .invalidBlockId
            | some tb =>
                match else_b with
                | some eid =>
                    match f.get_block eid with
                    | none => .err .invalidBlockId
                    | some eb =>
                        if tb.returns ≠ eb.returns then
                          .err (.invalidBlockType eid tb.returns eb.returns)
                        else .next (stack1 ++ tb.returns) info
                | none =>
                    if tb.returns ≠ [] then
                      .err (.invalidBlockType then_b [] tb.returns)
                    else .next (stack1 ++ tb.returns) info
  | .read ty =>
      if ty.is_struct then .err (.unexpectedStructType "Read instruction")
      else
        match stack_pop stack with
        | none => .err .stackUnderflow
        | some (p, stack1) =>
            if !p.is_ptr then .err (.invalidType .ptr p "Read instruction")
            else .next (stack1 ++ [ty]) info
  | .write ty =>
      -- NB the source reuses the string "Read instruction" here
      if ty.is_struct then .err (.unexpectedStructType "Read instruction")
      else
        match stack_pop stack with
        | none => .err .stackUnderflow
        | some (val, stack1) =>
            if val ≠ ty then .err (.invalidType ty val "Write instruction")
            else
              match stack_pop stack1 with
              | none => .err .stackUnderflow
              | some (p, stack2) =>
                  if !p.is_ptr then
                    .err (.invalidType .ptr p "Write instruction")
                  else .next stack2 info
  | .offset _ =>
      match stack_pop stack with
      | none => .err .stackUnderflow
      | some (num, stack1) =>
          if !num.is_int then
            .err (.invalidType .int32 num "Offset instruction")
          else
            match stack_pop stack1 with
            | none => .err .stackUnderflow
            | some (p, stack2) =>
                if !p.is_ptr then
                  .err (.invalidType .ptr p "Offset instruction")
                else .next (stack2 ++ [.ptr]) info
  | .getFieldPtr struct_ty field_idx =>
      if !struct_ty.is_struct then .err .getFieldPtrExpectedStructType
      else
        match struct_ty with
        | .struct fields =>
            -- NB the source rejects only `field_idx > fields.len()`
            if field_idx > fields.length then .err .outOfBoundsStructIndex
            else
              match stack_pop stack with
              | none => .err .stackUnderflow
              | some (p, stack1) =>
                  -- NB the source reuses the string "Offset instruction" here
                  if !p.is_ptr then
                    .err (.invalidType .ptr p "Offset instruction")
                  else .next (stack1 ++ [.ptr]) info
        | _ => .panicked
  | .discard =>
      match stack_pop stack with
      | none => .err .stackUnderflow
      | some (_, stack1) => .next stack1 info
  | .ret =>
      if stack.length ≠ f.ret_count then .err .stackUnderflow
      else
        -- the source's comparison loop iterates `(stack.len() - 1) ..= 0`,
        -- which under release semantics runs only when the stack holds
        -- exactly one value (a debug build would already panic on the
        -- subtraction for an empty stack)
        match stack with
        | [t] =>
            match f.ret_tys.get? 0 with
            | none => .panicked
            | some r =>
                if t ≠ r then .err (.invalidType r t "Return instruction")
                else .next [] info
        | _ => .next stack info
  | .memorySize => .next (stack ++ [.int32]) info
  | .memoryGrow =>
      match stack_pop stack with
      | none => .err .stackUnderflow
      | some (val, stack1) =>
          if !val.is_int then
            .err (.invalidType .int32 val "MemoryGrow instruction")
          else .next (stack1 ++ [val]) info
  | .ldGlobal name =>
      match m.get_global name with
      | none => .err (.undefinedGlobal name)
      | some g => .next (stack ++ [g.ty]) info
  | .stGlobal name =>
      match stack_pop stack with
      | none => .err .stackUnderflow
      | some (value, stack1) =>
          match m.get_global name with
          | none => .err (.undefinedGlobal name)
          | some g =>
              if value ≠ g.ty then
                .err (.invalidType g.ty value "StGlobal instruction")
              else .next stack1 info
  | .fail => .finished info
  | .loop body =>
      match f.get_block body with
      | none => .err .invalidBlockId
      | some bb =>
          if bb.returns ≠ [] then
            .err (.invalidBlockType body [] bb.returns)
          else .next stack info
  | .intrinsic => .panicked
  | .not => .panicked
  | .bitAnd => .panicked
  | .bitOr => .panicked
  | .brk => .panicked

/-- Result of `Verifier::verify_block`, enriched with the symbolic stack and
the accumulated metadata maps (`ok_early` is the `Fail` early return, which in
the source skips the end-of-block check). -/
inductive BlockRes where
  | err (e : VerifyError)
  | ok_end (stack : List Ty) (info : VInfo)
  | ok_early (info : VInfo)
  | panicked
deriving DecidableEq

/-- The instruction loop of `Verifier::verify_block`. -/
def verify_instrs (m : Module) (f : Function) (bid : BlockId) :
    Nat → List Instr → List Ty → VInfo → BlockRes
  | _, [], stack, info => .ok_end stack info
  | i, instr :: rest, stack, info =>
      match instr_step m f bid i stack info instr.kind with
      | .err e => .err e
      | .panicked => .panicked
      | .finished info' => .ok_early info'
      | .next stack' info' => verify_instrs m f bid (i + 1) rest stack' info'

/-- `Verifier::verify_block`: simulate the body from an empty stack, then
compare the remaining stack with the block's declared returns via
`stack.iter().zip(returns).all(..)`. -/
def verify_block (m : Module) (f : Function) (block : InstrBlock)
    (info : VInfo) : BlockRes :=
  match verify_instrs m f block.idx 0 block.body [] info with
  | .ok_end stack info' =>
      if (stack.zip block.returns).all (fun p => decide (p.1 = p.2)) then
        .ok_end stack info'
      else
        .err (.invalidBlockType block.idx block.returns stack)
  | r => r

/-- `Verifier::verify_no_struct_types`: the first offending bare struct type,
if any. -/
def verify_no_struct_types (f : Function) : Option VerifyError :=
  if f.all_locals_types.any (fun ty => ty.is_struct) then
    some (.unexpectedStructType "Function local")
  else if f.ret_tys.any (fun ty => ty.is_struct) then
    some (.unexpectedStructType "Function return value")
  else if f.blocks.any (fun b => b.returns.any (fun ty => ty.is_struct)) then
    some (.unexpectedStructType "Block return value")
  else none

/-- Result of `<Verifier as MutableFunctionPass>::visit_function`. -/
inductive FnRes where
  | err (e : VerifyError)
  | ok (info : VInfo)
  | panicked
deriving DecidableEq

/-- The per-block loop of the verifier's `visit_function`. -/
def verify_blocks (m : Module) (f : Function) :
    List InstrBlock → VInfo → FnRes
  | [], info => .ok info
  | b :: rest, info =>
      match verify_block m f b info with
      | .err e => .err e
      | .panicked => .panicked
      | .ok_end _ info' => verify_blocks m f rest info'
      | .ok_early info' => verify_blocks m f rest info'

/-- `<Verifier as MutableFunctionPass>::visit_function`: the struct-type scan
followed by `verify_block` on every block of the function. -/
def verifier_visit_function (m : Module) (f : Function) : FnRes :=
  match verify_no_struct_types f with
  | some e => .err e
  | none => verify_blocks m f f.blocks VInfo.empty

/-- The per-instruction metadata insertion of
`<Verifier as MutableFunctionPass>::mutate_function`. -/
def apply_meta (info : VInfo) (bid : BlockId) (i : Nat) (instr : Instr) :
    Instr :=
  let meta := instr.meta
  let meta := match assoc_get info.call_indirect_function_types (bid, i) with
    | some t => { meta with ty := some t }
    | none => meta
  let meta := match assoc_get info.bitcast_source_types (bid, i) with
    | some t => { meta with from_ty := some t }
    | none => meta
  let meta := match assoc_get info.numeric_instrs_data (bid, i) with
    | some b => { meta with bws := some b }
    | none => meta
  { instr with meta := meta }

/-- The body rewrite of the verifier's `mutate_function` for one block. -/
def mutate_body (info : VInfo) (bid : BlockId) : Nat → List Instr → List Instr
  | _, [] => []
  | i, instr :: rest => apply_meta info bid i instr :: mutate_body info bid (i + 1) rest

/-- `<Verifier as MutableFunctionPass>::mutate_function`. -/
def verifier_mutate_function (f : Function) (info : VInfo) : Function :=
  { f with blocks :=
      f.blocks.map (fun b => { b with body := mutate_body info b.idx 0 b.body }) }

/-! ## The control-flow verifier (`src/cf_verify.rs`) -/

/-- `ControlFlowVerifierError` from `src/cf_verify.rs`. -/
inductive CFError where
  | multipleParents (block : BlockId) (parent : BlockId) (other_parent : BlockId)
  | invalidBlockTag (block : BlockId) (expected : BlockTag) (actual : BlockTag)
deriving DecidableEq

/-- Outcome of a control-flow-verifier computation.  `panicked` models
`unwrap` panics and `HashMap` indexing of missing keys; `diverged` models the
source's unbounded parent walk failing to terminate (a cyclic parent map). -/
inductive CFRes (α : Type) where
  | ok (a : α)
  | fail (e : CFError)
  | panicked
  | diverged
deriving DecidableEq

def CFRes.bind {α β : Type} : CFRes α → (α → CFRes β) → CFRes β
  | .ok a, k => k a
  | .fail e, _ => .fail e
  | .panicked, _ => .panicked
  | .diverged, _ => .diverged

/-- The per-block parent map (`block_parents : HashMap<BlockId, BlockId>`). -/
abbrev Parents := List (BlockId × BlockId)

/-- `ControlFlowVerifier::assert_parent`. -/
def assert_parent (block_parents : Parents) (this parent : BlockId) :
    CFRes Parents :=
  match assoc_get block_parents this with
  | some orig => .fail (.multipleParents this orig parent)
  | none => .ok ((this, parent) :: block_parents)

/-- `ControlFlowVerifier::assert_tag` (the `get_block(..).unwrap()` panic for
an unknown block id is `panicked`). -/
def assert_tag (f : Function) (expected_tag : BlockTag) (id : BlockId) :
    CFRes Unit :=
  match f.get_block id with
  | none => .panicked
  | some b =>
      if b.tag ≠ expected_tag then
        .fail (.invalidBlockTag id expected_tag b.tag)
      else .ok ()

/-- Phase A of `ControlFlowVerifier::visit_function`, one instruction:
register `IfElse`/`Loop` children and check their tags. -/
def cf_instr (f : Function) (this_block : BlockId) (P : Parents) :
    InstrK → CFRes Parents
  | .ifElse then_b else_b =>
      CFRes.bind (assert_parent P then_b this_block) fun P1 =>
      CFRes.bind (assert_tag f .ifElse then_b) fun _ =>
      match else_b with
      | some else_block =>
          CFRes.bind (assert_parent P1 else_block this_block) fun P2 =>
          CFRes.bind (assert_tag f .ifElse else_block) fun _ =>
          .ok P2
      | none => .ok P1
  | .loop child =>
      CFRes.bind (assert_parent P child this_block) fun P1 =>
      CFRes.bind (assert_tag f .loop child) fun _ =>
      .ok P1
  | _ => .ok P

/-- Phase A over one block's body. -/
def cf_instrs (f : Function) (this_block : BlockId) :
    List Instr → Parents → CFRes Parents
  | [], P => .ok P
  | instr :: rest, P =>
      CFRes.bind (cf_instr f this_block P instr.kind) fun P1 =>
      cf_instrs f this_block rest P1

/-- Phase A over all blocks. -/
def cf_blocks (f : Function) : List InstrBlock → Parents → CFRes Parents
  | [], P => .ok P
  | b :: rest, P =>
      CFRes.bind (cf_instrs f b.idx b.body P) fun P1 =>
      cf_blocks f rest P1

/-- Result of the parent walk of phase B. -/
inductive WalkRes where
  | dist (k : Nat)
  | noLoop
  | panicked
  | diverged
deriving DecidableEq

/-- The parent walk of phase B for an `IfElse` block: follow the parent map
until a `Loop` (yielding the accumulated distance) or a `Main`/`Undefined`
block (no loop).  The source's `loop` has no fuel and spins forever on a
cyclic parent map; `fuel` running out models that divergence.  A missing
parent-map entry or block id panics (`block_parents[&current_block]`,
`get_block(parent).unwrap()`). -/
def walk_up (f : Function) (P : Parents) : Nat → BlockId → Nat → WalkRes
  | 0, _, _ => .diverged
  | fuel + 1, current_block, d =>
      match assoc_get P current_block with
      | none => .panicked
      | some parent =>
          match f.get_block parent with
          | none => .panicked
          | some pb =>
              match pb.tag with
              | .undefined | .main => .noLoop
              | .ifElse => walk_up f P fuel parent (d + 1)
              | .loop => .dist d

/-- Phase B of `ControlFlowVerifier::visit_function`: `Loop` blocks get
distance `0`, `IfElse` blocks walk the parent chain starting from distance
`1`, `Main`/`Undefined` blocks are skipped.  A chain with no cycle visits
pairwise distinct blocks, so `blocks.length + 1` fuel is exact: exhaustion
coincides with the source's infinite loop. -/
def phase_b (f : Function) (P : Parents) :
    List InstrBlock → CFRes (List (BlockId × Nat))
  | [] => .ok []
  | b :: rest =>
      match b.tag with
      | .undefined | .main => phase_b f P rest
      | .loop =>
          CFRes.bind (phase_b f P rest) fun l => .ok ((b.idx, 0) :: l)
      | .ifElse =>
          match walk_up f P (f.blocks.length + 1) b.idx 1 with
          | .dist k =>
              CFRes.bind (phase_b f P rest) fun l => .ok ((b.idx, k) :: l)
          | .noLoop => phase_b f P rest
          | .panicked => .panicked
          | .diverged => .diverged

/-- `ControlFlowVerifierData`. -/
structure CFData where
  block_parents : Parents
  innermost_loop_distances : List (BlockId × Nat)
deriving DecidableEq

/-- `<ControlFlowVerifier as MutableFunctionPass>::visit_function`:
entry-tag check, phase A, the no-parent-for-entry check, phase B. -/
def cf_visit_function (f : Function) : CFRes CFData :=
  match f.get_block 0 with
  | none => .panicked
  | some entry =>
      if entry.tag ≠ .main then
        .fail (.invalidBlockTag entry.idx .main entry.tag)
      else
        CFRes.bind (cf_blocks f f.blocks []) fun P =>
        match assoc_get P 0 with
        | some other_parent => .fail (.multipleParents 0 0 other_parent)
        | none =>
            CFRes.bind (phase_b f P f.blocks) fun ild =>
            .ok { block_parents := P, innermost_loop_distances := ild }

/-- `<ControlFlowVerifier as MutableFunctionPass>::mutate_function`: write the
`parent` and `innermost_loop_distance` metadata onto the blocks. -/
def cf_mutate_function (f : Function) (d : CFData) : Function :=
  { f with blocks := f.blocks.map (fun b =>
      let meta := b.meta
      let meta := match assoc_get d.block_parents b.idx with
        | some p => { meta with parent := some p }
        | none => meta
      let meta := match assoc_get d.innermost_loop_distances b.idx with
        | some k => { meta with innermost_loop_distance := some k }
        | none => meta
      { b with meta := meta }) }

/-- The tag of the block with a given id, if any. -/
def tag_of (f : Function) (id : BlockId) : Option BlockTag :=
  (f.get_block id).map InstrBlock.tag

/-- The claim-side ancestor-chain relation: `LoopChain f P b n` states that
following the parent map from `b` reaches a `Loop`-tagged block whose chain
interior consists of exactly `n` `IfElse`-tagged blocks (the "chain of parent
blocks from `b` up to its nearest `Loop` ancestor passes through exactly `n`
`IfElse` blocks"). -/
inductive LoopChain (f : Function) (P : Parents) : BlockId → Nat → Prop where
  | found (b p : BlockId) (hp : assoc_get P b = some p)
      (ht : tag_of f p = some .loop) : LoopChain f P b 0
  | step (b p : BlockId) (n : Nat) (hp : assoc_get P b = some p)
      (ht : tag_of f p = some .ifElse) (hc : LoopChain f P p n) :
      LoopChain f P b (n + 1)

/-! ## The instruction splice pass (`src/passes/instr_rewrite.rs`) -/

/-- One entry of `BlobRewriteData<'ctx>`: a half-open index range
`start .. stop` and the replacement instructions. -/
structure RangeRepl where
  start : Nat
  stop : Nat
  repl : List Instr
deriving DecidableEq

/-- The indices a Rust `Range<usize>` `s..t` iterates (empty when `s ≥ t`). -/
def range_indices (s t : Nat) : List Nat :=
  (List.range (t - s)).map (fun k => s + k)

/-- Inserting indices one by one into the bit set; `none` on a duplicate
(`if !is_new { return Err(()) }`). -/
def insert_indices (seen : List Nat) : List Nat → Option (List Nat)
  | [] => some seen
  | i :: rest =>
      if i ∈ seen then none else insert_indices (i :: seen) rest

/-- The per-block overlap check of `InstrRewritePass::new`. -/
def check_changes (seen : List Nat) : List RangeRepl → Option (List Nat)
  | [] => some seen
  | c :: rest =>
      match insert_indices seen (range_indices c.start c.stop) with
      | none => none
      | some seen1 => check_changes seen1 rest

/-- `InstrRewritePass<'ctx>` (after construction: per-block change lists
sorted by descending range start). -/
structure InstrRewritePass where
  target_function_idx : Nat
  modifications : List (BlockId × List RangeRepl)
deriving DecidableEq

/-- The descending-by-start sort of `InstrRewritePass::new`
(`sort_by(.. cmp(start).reverse())`; Rust's sort and `insertionSort` here are
both stable, though no theorem below depends on stability). -/
def sort_desc (changes : List RangeRepl) : List RangeRepl :=
  List.insertionSort (fun a b => b.start ≤ a.start) changes

/-- `InstrRewritePass::new`: reject overlapping ranges, then sort each
block's ranges by descending start. -/
def instr_rewrite_pass_new (target_function_idx : Nat)
    (modifications : List (BlockId × List RangeRepl)) :
    Option InstrRewritePass :=
  if modifications.all (fun bc => (check_changes [] bc.2).isSome) then
    some { target_function_idx := target_function_idx,
           modifications := modifications.map (fun bc => (bc.1, sort_desc bc.2)) }
  else none

/-- `<InstrRewritePass as MutableFunctionPass>::visit_function`: on the target
function, every modified block id must exist. -/
def rewrite_visit (p : InstrRewritePass) (f : Function) : Bool :=
  if f.idx = p.target_function_idx then
    p.modifications.all (fun bc => (f.get_block bc.1).isSome)
  else true

/-- One `Vec::splice` application.  The pass itself panics when
`range.end > body.len()`; `Vec::splice` additionally panics when the range is
decreasing (`start > end`).  Both panics are `none`. -/
def splice (body : List Instr) (s t : Nat) (repl : List Instr) :
    Option (List Instr) :=
  if t > body.length then none
  else if s > t then none
  else some (body.take s ++ repl ++ body.drop t)

/-- The splice loop over one block's (already sorted) change list. -/
def apply_changes (body : List Instr) : List RangeRepl → Option (List Instr)
  | [] => some body
  | c :: rest =>
      match splice body c.start c.stop c.repl with
      | none => none
      | some body1 => apply_changes body1 rest

/-- `get_block_mut(..).unwrap()` followed by the splice loop, rebuilding the
block list (`none` both for a missing block and for a splice panic). -/
def rewrite_block_in (bid : BlockId) (changes : List RangeRepl) :
    List InstrBlock → Option (List InstrBlock)
  | [] => none
  | b :: rest =>
      if b.idx = bid then
        (apply_changes b.body changes).map
          (fun body' => { b with body := body' } :: rest)
      else
        (rewrite_block_in bid changes rest).map (fun rest' => b :: rest')

/-- The per-block loop of the pass's `mutate_function`. -/
def rewrite_go : List (BlockId × List RangeRepl) → List InstrBlock →
    Option (List InstrBlock)
  | [], bs => some bs
  | bc :: rest, bs =>
      match rewrite_block_in bc.1 bc.2 bs with
      | none => none
      | some bs1 => rewrite_go rest bs1

/-- `<InstrRewritePass as MutableFunctionPass>::mutate_function`. -/
def rewrite_mutate_function (p : InstrRewritePass) (f : Function) :
    Option Function :=
  if f.idx ≠ p.target_function_idx then some f
  else (rewrite_go p.modifications f.blocks).map
    (fun blocks' => { f with blocks := blocks' })

/-- `i` lies outside every range of `changes`. -/
def safe_idx (changes : List RangeRepl) (i : Nat) : Bool :=
  changes.all (fun c => decide (i < c.start) || decide (c.stop ≤ i))

/-- The elements of `l` sitting at positions (counted from `i`) satisfying
`φ`, in order. -/
def filter_idx {α : Type} (φ : Nat → Bool) : Nat → List α → List α
  | _, [] => []
  | i, x :: xs =>
      if φ i then x :: filter_idx φ (i + 1) xs else filter_idx φ (i + 1) xs

/-- The instructions of `body` whose index lies outside every replaced range:
the sublist C10 asserts is preserved. -/
def outside_instrs (changes : List RangeRepl) (body : List Instr) :
    List Instr :=
  filter_idx (safe_idx changes) 0 body

/-! ## Concrete example inputs used by the claim theorems -/

/-- An empty module (no functions, no globals). -/
def m0 : Module := { functions := [], globals := [] }

/-- A block with declared returns `[]` whose body leaves `int32` on the
stack. -/
def b_C1 : InstrBlock :=
  { idx := 0, tag := .main, body := [Instr.new (.ldInt 0 .int32)],
    block_ty := .func [] [] }

def f_C1 : Function :=
  { name := "c1", ty := .func [] [], blocks := [b_C1],
    all_locals_types := [], idx := 0 }

/-- A function declared to return `[int32, int32]` whose only block reaches
`Return` with `[float32, float32]` on the stack. -/
def b_C2 : InstrBlock :=
  { idx := 0, tag := .main,
    body := [Instr.new .ldFloat, Instr.new .ldFloat, Instr.new .ret],
    block_ty := .func [] [] }

def f_C2 : Function :=
  { name := "c2", ty := .func [] [.int32, .int32], blocks := [b_C2],
    all_locals_types := [], idx := 0 }

/-- A function with an unreferenced non-entry block (id 1). -/
def b0_C3 : InstrBlock :=
  { idx := 0, tag := .main, body := [], block_ty := .func [] [] }

def b1_C3 : InstrBlock :=
  { idx := 1, tag := .undefined, body := [], block_ty := .func [] [] }

def f_C3 : Function :=
  { name := "c3", ty := .func [] [], blocks := [b0_C3, b1_C3],
    all_locals_types := [], idx := 0 }

/-- A function whose only loop body block (id 1) sits directly under the
entry block: block 1 has no `Loop` ancestor. -/
def b0_C4 : InstrBlock :=
  { idx := 0, tag := .main, body := [Instr.new (.loop 1)],
    block_ty := .func [] [] }

def b1_C4 : InstrBlock :=
  { idx := 1, tag := .loop, body := [], block_ty := .func [] [] }

def f_C4 : Function :=
  { name := "c4", ty := .func [] [], blocks := [b0_C4, b1_C4],
    all_locals_types := [], idx := 0 }

/-- A block loading a huge `u32` constant with type `UInt8`. -/
def b_C7 : InstrBlock :=
  { idx := 0, tag := .main, body := [Instr.new (.ldInt 4294967295 .uint8)],
    block_ty := .func [] [.uint8] }

def f_C7 : Function :=
  { name := "c7", ty := .func [] [.uint8], blocks := [b_C7],
    all_locals_types := [], idx := 0 }

/-- A block bitcasting an `int32` to a struct type (no 32-bit backend
representation). -/
def b_C8 : InstrBlock :=
  { idx := 0, tag := .main,
    body := [Instr.new (.ldInt 0 .int32), Instr.new (.bitcast (.struct []))],
    block_ty := .func [] [] }

def f_C8 : Function :=
  { name := "c8", ty := .func [] [], blocks := [b_C8],
    all_locals_types := [], idx := 0 }

/-- A block applying `GetFieldPtr { struct {int32}, field_idx = 1 }`: the
index equals the field count. -/
def b_C9 : InstrBlock :=
  { idx := 0, tag := .main,
    body := [Instr.new (.ldLocal 0),
             Instr.new (.getFieldPtr (.struct [.int32]) 1)],
    block_ty := .func [] [.ptr] }

def f_C9 : Function :=
  { name := "c9", ty := .func [] [.ptr], blocks := [b_C9],
    all_locals_types := [.ptr], idx := 0 }

/-- A rewrite plan with the decreasing range `5..3` (no indices, so the
overlap check accepts it). -/
def mods_C10 : List (BlockId × List RangeRepl) :=
  [(0, [{ start := 5, stop := 3, repl := [] }])]

def p_C10 : InstrRewritePass :=
  { target_function_idx := 0, modifications := mods_C10 }

/-- A function whose block 0 has six instructions (long enough for the
range `5..3`). -/
def b_C10 : InstrBlock :=
  { idx := 0, tag := .main,
    body := [Instr.new .ldFloat, Instr.new .ldFloat, Instr.new .ldFloat,
             Instr.new .ldFloat, Instr.new .ldFloat, Instr.new .ldFloat],
    block_ty := .func [] [] }

def f_C10 : Function :=
  { name := "c10", ty := .func [] [], blocks := [b_C10],
    all_locals_types := [], idx := 0 }

/-- A one-function module for the C5 witness. -/
def f_W5 : Function :=
  { name := "w5", ty := .func [] [], blocks := [], all_locals_types := [],
    idx := 0 }

def m_W5 : Module := { functions := [.local f_W5], globals := [] }

/-- Witness inputs for C4: an `IfElse` block (id 2) inside a loop body
(id 1) under the entry block. -/
def b0_W4 : InstrBlock :=
  { idx := 0, tag := .main, body := [Instr.new (.loop 1)],
    block_ty := .func [] [] }

def b1_W4 : InstrBlock :=
  { idx := 1, tag := .loop,
    body := [Instr.new (.ldInt 1 .int32), Instr.new (.ifElse 2 none)],
    block_ty := .func [] [] }

def b2_W4 : InstrBlock :=
  { idx := 2, tag := .ifElse, body := [], block_ty := .func [] [] }

def f_W4 : Function :=
  { name := "w4", ty := .func [] [], blocks := [b0_W4, b1_W4, b2_W4],
    all_locals_types := [], idx := 0 }

/-- Witness inputs for C10: replace index range `1..2` of a three-instruction
block with nothing. -/
def mods_W10 : List (BlockId × List RangeRepl) :=
  [(0, [{ start := 1, stop := 2, repl := [] }])]

def p_W10 : InstrRewritePass :=
  { target_function_idx := 0, modifications := mods_W10 }

def b_W10 : InstrBlock :=
  { idx := 0, tag := .main,
    body := [Instr.new (.ldInt 1 .int32), Instr.new (.ldInt 2 .int32),
             Instr.new (.ldInt 3 .int32)],
    block_ty := .func [] [] }

def f_W10 : Function :=
  { name := "w10", ty := .func [] [], blocks := [b_W10],
    all_locals_types := [], idx := 0 }

/-! ## Claim theorems -/

/-- C1: the claim states that a verified block's simulated stack equals its
declared return sequence exactly, extra or missing values being rejected with
`InvalidBlockType`.  The code instead compares via `zip`, which truncates to
the shorter sequence: this block has declared returns `[]`, its simulated
stack ends as `[int32]`, and the verifier accepts the block (and the whole
function) all the same. -/
theorem C1_zip_truncation_accepts_extra_stack :
    verify_block m0 f_C1 b_C1 VInfo.empty = .ok_end [Ty.int32] VInfo.empty ∧
    b_C1.returns = [] ∧
    verifier_visit_function m0 f_C1 = .ok VInfo.empty := by
  refine ⟨by decide, by decide, by decide⟩

/-- C2: the claim states that `Return` is accepted iff the stack holds
exactly the declared return sequence, a type mismatch at any position being
rejected with `InvalidType`.  The code's comparison loop iterates the empty
range `(len-1)..=0` whenever the stack holds two or more values, so this
function — declared returns `[int32, int32]`, stack `[float32, float32]` at
`Return` — is accepted. -/
theorem C2_return_type_check_skipped_for_two_values :
    instr_step m0 f_C2 0 2 [Ty.float32, Ty.float32] VInfo.empty .ret =
      .next [Ty.float32, Ty.float32] VInfo.empty ∧
    f_C2.ret_tys = [Ty.int32, Ty.int32] ∧
    verifier_visit_function m0 f_C2 = .ok VInfo.empty := by
  refine ⟨by decide, by decide, by decide⟩

/-- C3: the claim states that after control-flow verification every non-entry
block is referenced by exactly one instruction, a zero-reference non-entry
block not occurring.  `f_C3` has the non-entry block 1, no instruction
references any block (the parent map comes back empty), and the verifier
accepts. -/
theorem C3_orphan_block_accepted :
    cf_visit_function f_C3 =
      .ok { block_parents := [], innermost_loop_distances := [] } ∧
    f_C3.blocks.map (fun b => b.idx) = [0, 1] ∧
    tag_of f_C3 1 = some .undefined := by
  refine ⟨by decide, by decide, by decide⟩

/-- C6: the claim (and the spec) say the unsigned 16-bit mask constant is
`2^16 − 1 = 65535`.  The code emits `65536 = 2^16` in both the
`IAdd/ISub/IMul` arm and the `IConv`-to-`UInt16` arm (the 8-bit masks use the
correct `255`). -/
theorem C6_u16_mask_constant_is_65536 :
    emit_numeric_instr .iAdd .u16 true =
      some [.i32Add, .i32Const 65536, .i32And] ∧
    emit_numeric_instr (.iConv .uint16) .s32 true =
      some [.i32Const 65536, .i32And] ∧
    emit_numeric_instr .iAdd .u8 true =
      some [.i32Add, .i32Const 255, .i32And] ∧
    emit_numeric_instr (.iConv .uint8) .s32 true =
      some [.i32Const 255, .i32And] ∧
    (65536 : Int) = 2 ^ 16 ∧ (2 : Int) ^ 16 - 1 = 65535 := by
  refine ⟨by decide, by decide, by decide, by decide, by decide, by decide⟩

/-- C7: the claim states that `LdInt(v, UInt8)` is rejected with
`ConstIntOverflow` for every raw 32-bit constant `v > 255`.  The code compares
`v as i32 > 255`; for `v = 4294967295` the cast yields `-1`, so the
instruction — and the whole function — is accepted. -/
theorem C7_ld_int_uint8_huge_constant_accepted :
    instr_step m0 f_C7 0 0 [] VInfo.empty (.ldInt 4294967295 .uint8) =
      .next [Ty.uint8] VInfo.empty ∧
    255 < 4294967295 ∧
    verifier_visit_function m0 f_C7 = .ok VInfo.empty := by
  refine ⟨by decide, by decide, by decide⟩

/-- C9: the claim states the verifier rejects `GetFieldPtr` whose `fieldIdx`
is not strictly below the struct's field count, keeping the emitter's offsets
lookup in bounds.  The code tests `field_idx > len`, so `field_idx = 1` on a
one-field struct is accepted — and the emitter's offset lookup for that index
is out of bounds. -/
theorem C9_get_field_ptr_off_by_one :
    instr_step m0 f_C9 0 1 [Ty.ptr] VInfo.empty
        (.getFieldPtr (.struct [.int32]) 1) = .next [Ty.ptr] VInfo.empty ∧
    verifier_visit_function m0 f_C9 = .ok VInfo.empty ∧
    struct_field_offset [Ty.int32] 1 = none ∧
    get_field_ptr_lowering [Ty.int32] 1 = none := by
  refine ⟨by decide, by decide, by decide, by decide⟩

/-- C4 (counterexample): the claim states a block carries
`innermost_loop_distance = k` iff its parent chain reaches a nearest `Loop`
ancestor through `k−1` `IfElse` blocks, and carries none iff it has no `Loop`
ancestor.  Block 1 of `f_C4` is `Loop`-tagged, its parent is the `Main` entry
block — it has no `Loop` ancestor — yet the verifier records distance `0` for
it (also a value the claim's `k−1` reading cannot produce). -/
theorem C4_counterexample_loop_block_distance_zero :
    cf_visit_function f_C4 =
      .ok { block_parents := [(1, 0)],
            innermost_loop_distances := [(1, 0)] } ∧
    assoc_get [((1 : BlockId), (0 : BlockId))] (1 : BlockId) = some 0 ∧
    tag_of f_C4 0 = some .main ∧
    tag_of f_C4 1 = some .loop := by
  refine ⟨by decide, by decide, by decide, by decide⟩

/-- C8 (counterexample): the claim states the verifier rejects a `Bitcast`
whose source and target differ in backend width (e.g. a struct-typed target).
The code's match accepts every combination: bitcasting `int32` (backend
`I32`) to `struct {}` (no backend value representation at all) verifies
fine, the source type being recorded in the `from` map. -/
theorem C8_counterexample_bitcast_struct_target_accepted :
    verifier_visit_function m0 f_C8 =
      .ok { bitcast_source_types := [((0, 1), Ty.int32)] } ∧
    compile_type (.struct []) = none ∧
    compile_type Ty.int32 = some .i32 := by
  refine ⟨by decide, by decide, by decide⟩

/-- C10 (counterexample): the claim states that any plan accepted by the
constructor, run on a function whose bodies are long enough for the ranges,
preserves all instructions outside the ranges.  The decreasing range `5..3`
contains no indices, so the constructor accepts it, but `Vec::splice` panics
on it: the pass dies without producing a result. -/
theorem C10_counterexample_decreasing_range_panics :
    instr_rewrite_pass_new 0 mods_C10 = some p_C10 ∧
    rewrite_visit p_C10 f_C10 = true ∧
    b_C10.body.length = 6 ∧
    rewrite_mutate_function p_C10 f_C10 = none := by
  refine ⟨by decide, by decide, by decide, by decide⟩

/-- `Vec::pop` pops the last element: popping `l ++ [t]` yields `t` and
leaves `l`. -/
theorem stack_pop_concat : ∀ (l : List Ty) (t : Ty),
    stack_pop (l ++ [t]) = some (t, l)
  | [], _ => rfl
  | [_], _ => rfl
  | x :: y :: rest, t => by
      have ih := stack_pop_concat (y :: rest) t
      simp only [List.cons_append] at ih ⊢
      simp [stack_pop, ih]

/-- C5: for every module, the emitted function table has minimum and maximum
capacity `N + 1` (`N` the extern-plus-local function count), its element
segment starts at offset 1 and lists the function indices `0 .. N` in order
(so table entry `i + 1` is function `i`, entry 0 staying null), and lowering
`LdGlobalFunc` for a function with module index `i` emits the constant
`i + 1`. -/
theorem C5_global_function_table (m : Module) (name : String) (fd : FuncDef)
    (hf : m.get_function name = some fd)
    (hidx : fd.idx + 1 ≤ 2147483647) :
    (emit_global_function_table m).1.minimum = m.function_count + 1 ∧
    (emit_global_function_table m).1.maximum = some (m.function_count + 1) ∧
    (emit_global_function_table m).2.offset_expr = .i32Const 1 ∧
    (emit_global_function_table m).2.functions = List.range m.function_count ∧
    (∀ i, i < m.function_count →
      (emit_global_function_table m).2.functions.get? i = some i) ∧
    ld_global_func_lowering m name = some [.i32Const (fd.idx + 1 : Nat)] := by
  refine ⟨rfl, rfl, rfl, rfl, ?_, ?_⟩
  · intro i hi
    simp [emit_global_function_table, List.getElem?_range hi]
  · simp [ld_global_func_lowering, hf, hidx]

/-- C5 witness: the concrete one-function module `m_W5`. -/
theorem C5_witness :
    (emit_global_function_table m_W5).1.minimum = 2 ∧
    ld_global_func_lowering m_W5 "w5" = some [.i32Const 1] := by
  have h := C5_global_function_table m_W5 "w5" (.local f_W5) rfl (by decide)
  exact ⟨h.1, h.2.2.2.2.2⟩

/-- C8 (amended): the verifier accepts every `Bitcast` with a non-empty
operand stack — whatever the source type `t` and target type — pushing the
target and recording the popped source type `t` under the instruction's key;
and the verifier's mutation writes every recorded source type into that
instruction's `from` metadata. -/
theorem C8_amended_bitcast_accepts_and_records
    (m : Module) (f : Function) (bid : BlockId) (i : Nat)
    (rest : List Ty) (t : Ty) (info : VInfo) (target : Ty)
    (info2 : VInfo) (instr : Instr) (src : Ty)
    (hmeta : assoc_get info2.bitcast_source_types (bid, i) = some src) :
    instr_step m f bid i (rest ++ [t]) info (.bitcast target) =
      .next (rest ++ [target])
        { info with bitcast_source_types :=
            ((bid, i), t) :: info.bitcast_source_types } ∧
    (apply_meta info2 bid i instr).meta.from_ty = some src := by
  constructor
  · simp [instr_step, stack_pop_concat]
  · rcases h1 : assoc_get info2.call_indirect_function_types (bid, i) with _ | t1 <;>
      rcases h3 : assoc_get info2.numeric_instrs_data (bid, i) with _ | b1 <;>
      simp [apply_meta, hmeta, h1, h3]

/-- C8 witness: the amended theorem applied to the concrete bitcast of
`f_C8` (source `int32`, target `struct {}`). -/
theorem C8_amended_witness :
    instr_step m0 f_C8 0 1 [Ty.int32] VInfo.empty (.bitcast (.struct [])) =
      .next [Ty.struct []]
        { VInfo.empty with bitcast_source_types := [((0, 1), Ty.int32)] } ∧
    (apply_meta { bitcast_source_types := [((0, 1), Ty.int32)] } 0 1
        (Instr.new (.bitcast (.struct [])))).meta.from_ty = some Ty.int32 :=
  C8_amended_bitcast_accepts_and_records m0 f_C8 0 1 [] Ty.int32 VInfo.empty
    (.struct []) { bitcast_source_types := [((0, 1), Ty.int32)] }
    (Instr.new (.bitcast (.struct []))) Ty.int32 rfl

theorem assoc_get_cons_self {K V : Type} [DecidableEq K] (k : K) (v : V)
    (l : List (K × V)) : assoc_get ((k, v) :: l) k = some v := by
  simp [assoc_get, List.find?_cons_of_pos]

theorem assoc_get_cons_ne {K V : Type} [DecidableEq K] (k k' : K) (v : V)
    (l : List (K × V)) (h : k' ≠ k) :
    assoc_get ((k', v) :: l) k = assoc_get l k := by
  simp [assoc_get, List.find?_cons_of_neg, h]

/-- Soundness of the phase-B walk: a returned distance `k` witnesses an
ancestor chain with `k - dd` interior `IfElse` blocks. -/
theorem walk_dist_chain (f : Function) (P : Parents) :
    ∀ (fuel : Nat) (cur : BlockId) (dd k : Nat),
      walk_up f P fuel cur dd = .dist k →
      ∃ n, LoopChain f P cur n ∧ k = dd + n := by
  intro fuel
  induction fuel with
  | zero => intro cur dd k h; cases h
  | succ fuel ih =>
      intro cur dd k h
      unfold walk_up at h
      split at h
      · cases h
      · rename_i parent hp
        split at h
        · cases h
        · rename_i pb hgb
          have htag_of : tag_of f parent = some pb.tag := by
            simp [tag_of, hgb]
          split at h
          · cases h
          · cases h
          · rename_i htag
            obtain ⟨n, hc, hk⟩ := ih parent (dd + 1) k h
            exact ⟨n + 1,
              .step cur parent n hp (htag ▸ htag_of) hc, by omega⟩
          · rename_i htag
            cases h
            exact ⟨0, .found cur parent hp (htag ▸ htag_of), by omega⟩

/-- The parent map is a partial function, so ancestor chains are unique. -/
theorem chain_unique {f : Function} {P : Parents} {b : BlockId} {n : Nat}
    (h1 : LoopChain f P b n) :
    ∀ {m : Nat}, LoopChain f P b m → n = m := by
  induction h1 with
  | found b p hp ht =>
      intro m h2
      cases h2 with
      | found => rfl
      | step _ p' n' hp' ht' hc' =>
          rw [hp] at hp'
          cases hp'
          rw [ht] at ht'
          cases ht'
  | step b p n hp ht hc ih =>
      intro m h2
      cases h2 with
      | found _ p' hp' ht' =>
          rw [hp] at hp'
          cases hp'
          rw [ht] at ht'
          cases ht'
      | step _ p' n' hp' ht' hc' =>
          rw [hp] at hp'
          cases hp'
          rw [ih hc']

/-- Completeness of the phase-B walk: a `noLoop` verdict excludes every
ancestor chain. -/
theorem walk_noLoop_no_chain (f : Function) (P : Parents) :
    ∀ (fuel : Nat) (cur : BlockId) (dd : Nat),
      walk_up f P fuel cur dd = .noLoop →
      ∀ n, ¬ LoopChain f P cur n := by
  intro fuel
  induction fuel with
  | zero => intro cur dd h; cases h
  | succ fuel ih =>
      intro cur dd h n hch
      unfold walk_up at h
      split at h
      · cases h
      · rename_i parent hp
        split at h
        · cases h
        · rename_i pb hgb
          have htag_of : tag_of f parent = some pb.tag := by
            simp [tag_of, hgb]
          split at h
          · rename_i htag
            cases hch with
            | found _ p' hp' ht' =>
                rw [hp] at hp'; cases hp'
                rw [htag_of, htag] at ht'; simp at ht'
            | step _ p' n' hp' ht' hc' =>
                rw [hp] at hp'; cases hp'
                rw [htag_of, htag] at ht'; simp at ht'
          · rename_i htag
            cases hch with
            | found _ p' hp' ht' =>
                rw [hp] at hp'; cases hp'
                rw [htag_of, htag] at ht'; simp at ht'
            | step _ p' n' hp' ht' hc' =>
                rw [hp] at hp'; cases hp'
                rw [htag_of, htag] at ht'; simp at ht'
          · rename_i htag
            cases hch with
            | found _ p' hp' ht' =>
                rw [hp] at hp'; cases hp'
                rw [htag_of, htag] at ht'; simp at ht'
            | step _ p' n' hp' ht' hc' =>
                rw [hp] at hp'; cases hp'
                exact ih parent (dd + 1) h n' hc'
          · cases h

/-- Every key of a phase-B result is the id of some listed block. -/
theorem phase_b_keys (f : Function) (P : Parents) :
    ∀ (bs : List InstrBlock) (out : List (BlockId × Nat)) (k : BlockId)
      (v : Nat), phase_b f P bs = .ok out → assoc_get out k = some v →
      k ∈ bs.map (fun b => b.idx) := by
  intro bs
  induction bs with
  | nil =>
      intro out k v hok hget
      cases hok
      cases hget
  | cons b0 rest ih =>
      intro out k v hok hget
      unfold phase_b at hok
      split at hok
      · exact List.mem_cons_of_mem _ (ih out k v hok hget)
      · exact List.mem_cons_of_mem _ (ih out k v hok hget)
      · -- Loop-tagged block: entry (b0.idx, 0) is prepended
        rcases hrest : phase_b f P rest with out' | e | _ | _ <;>
          rw [hrest] at hok <;> simp only [CFRes.bind] at hok <;> cases hok
        by_cases hk : b0.idx = k
        · exact hk ▸ List.mem_cons_self _ _
        · rw [assoc_get_cons_ne _ _ _ _ hk] at hget
          exact List.mem_cons_of_mem _ (ih out' k v hrest hget)
      · -- IfElse-tagged block: split on the walk result
        split at hok
        · rename_i kk hw
          rcases hrest : phase_b f P rest with out' | e | _ | _ <;>
            rw [hrest] at hok <;> simp only [CFRes.bind] at hok <;> cases hok
          by_cases hk : b0.idx = k
          · exact hk ▸ List.mem_cons_self _ _
          · rw [assoc_get_cons_ne _ _ _ _ hk] at hget
            exact List.mem_cons_of_mem _ (ih out' k v hrest hget)
        · exact List.mem_cons_of_mem _ (ih out k v hok hget)
        · cases hok
        · cases hok

/-- What phase B records for each block, by tag: `Main`/`Undefined` blocks get
nothing, `Loop` blocks get distance 0, `IfElse` blocks get the walk's
distance (or nothing when the walk finds no loop). -/
theorem phase_b_spec (f : Function) (P : Parents) :
    ∀ (bs : List InstrBlock) (out : List (BlockId × Nat)),
      phase_b f P bs = .ok out → (bs.map (fun b => b.idx)).Nodup →
      ∀ b ∈ bs,
        (b.tag = .main → assoc_get out b.idx = none) ∧
        (b.tag = .undefined → assoc_get out b.idx = none) ∧
        (b.tag = .loop → assoc_get out b.idx = some 0) ∧
        (b.tag = .ifElse →
          (∃ k, walk_up f P (f.blocks.length + 1) b.idx 1 = .dist k ∧
            assoc_get out b.idx = some k) ∨
          (walk_up f P (f.blocks.length + 1) b.idx 1 = .noLoop ∧
           assoc_get out b.idx = none)) := by
  intro bs
  induction bs with
  | nil => intro out hok hnd b hb; cases hb
  | cons b0 rest ih =>
      intro out hok hnd b hb
      rw [List.map_cons, List.nodup_cons] at hnd
      obtain ⟨hnotin, hndrest⟩ := hnd
      have absent : ∀ out', phase_b f P rest = .ok out' →
          assoc_get out' b0.idx = none := by
        intro out' hrest
        cases hget : assoc_get out' b0.idx with
        | none => rfl
        | some v =>
            exact absurd (phase_b_keys f P rest out' b0.idx v hrest hget)
              hnotin
      rcases List.mem_cons.mp hb with hb | hb
      · -- b = b0
        subst hb
        unfold phase_b at hok
        split at hok
        · rename_i htag
          refine ⟨?_, fun _ => absent out hok, ?_, ?_⟩ <;>
            (intro h; rw [h] at htag; cases htag)
        · rename_i htag
          refine ⟨fun _ => absent out hok, ?_, ?_, ?_⟩ <;>
            (intro h; rw [h] at htag; cases htag)
        · rename_i htag
          rcases hrest : phase_b f P rest with out' | e | _ | _ <;>
            rw [hrest] at hok <;> simp only [CFRes.bind] at hok <;> cases hok
          refine ⟨?_, ?_, fun _ => assoc_get_cons_self _ _ _, ?_⟩ <;>
            (intro h; rw [h] at htag; cases htag)
        · rename_i htag
          split at hok
          · rename_i kk hw
            rcases hrest : phase_b f P rest with out' | e | _ | _ <;>
              rw [hrest] at hok <;> simp only [CFRes.bind] at hok <;>
              cases hok
            refine ⟨?_, ?_, ?_,
              fun _ => .inl ⟨kk, hw, assoc_get_cons_self _ _ _⟩⟩ <;>
              (intro h; rw [h] at htag; cases htag)
          · rename_i hw
            refine ⟨?_, ?_, ?_, fun _ => .inr ⟨hw, absent out hok⟩⟩ <;>
              (intro h; rw [h] at htag; cases htag)
          · cases hok
          · cases hok
      · -- b ∈ rest
        have hne : b0.idx ≠ b.idx := by
          intro he
          exact hnotin (he ▸ List.mem_map_of_mem (fun x => x.idx) hb)
        unfold phase_b at hok
        split at hok
        · exact ih out hok hndrest b hb
        · exact ih out hok hndrest b hb
        · rcases hrest : phase_b f P rest with out' | e | _ | _ <;>
            rw [hrest] at hok <;> simp only [CFRes.bind] at hok <;> cases hok
          have spec := ih out' hrest hndrest b hb
          rw [← assoc_get_cons_ne (l := out') (v := 0) b.idx b0.idx hne]
            at spec
          exact spec
        · split at hok
          · rename_i kk hw
            rcases hrest : phase_b f P rest with out' | e | _ | _ <;>
              rw [hrest] at hok <;> simp only [CFRes.bind] at hok <;>
              cases hok
            have spec := ih out' hrest hndrest b hb
            rw [← assoc_get_cons_ne (l := out') (v := kk) b.idx b0.idx hne]
              at spec
            exact spec
          · exact ih out hok hndrest b hb
          · cases hok
          · cases hok

/-- Decomposition of a successful control-flow verification: phase A
produced the parent map, the entry has no parent, and phase B produced the
distance map. -/
theorem cf_visit_ok_parts (f : Function) (d : CFData)
    (h : cf_visit_function f = .ok d) :
    cf_blocks f f.blocks [] = .ok d.block_parents ∧
    assoc_get d.block_parents 0 = none ∧
    phase_b f d.block_parents f.blocks = .ok d.innermost_loop_distances := by
  unfold cf_visit_function at h
  split at h
  · cases h
  · rename_i entry hg
    split at h
    · cases h
    · rcases hP : cf_blocks f f.blocks [] with P | e | _ | _ <;>
        rw [hP] at h <;> simp only [CFRes.bind] at h <;> try cases h
      split at h
      · cases h
      · rename_i hget0
        rcases hB : phase_b f P f.blocks with ild | e | _ | _ <;>
          rw [hB] at h <;> simp only [CFRes.bind] at h <;> cases h
        exact ⟨rfl, hget0, hB⟩

/-- C4 (amended): after a successful control-flow verification (block ids
distinct, as the source's `HashMap` keying guarantees), a `Loop`-tagged block
always carries `innermost_loop_distance` 0; `Main`/`Undefined`-tagged blocks
never carry it; and an `IfElse`-tagged block carries distance `n + 1` iff its
parent chain reaches a nearest `Loop` ancestor through exactly `n` interior
`IfElse` blocks, carrying none iff no such chain exists. -/
theorem C4_amended_innermost_loop_distance
    (f : Function) (d : CFData)
    (hnd : (f.blocks.map (fun b => b.idx)).Nodup)
    (hAcc : cf_visit_function f = .ok d)
    (b : InstrBlock) (hb : b ∈ f.blocks) :
    (b.tag = .loop → assoc_get d.innermost_loop_distances b.idx = some 0) ∧
    ((b.tag = .main ∨ b.tag = .undefined) →
      assoc_get d.innermost_loop_distances b.idx = none) ∧
    (b.tag = .ifElse →
      (∀ n, (assoc_get d.innermost_loop_distances b.idx = some (n + 1) ↔
        LoopChain f d.block_parents b.idx n)) ∧
      (assoc_get d.innermost_loop_distances b.idx = none ↔
        ∀ n, ¬ LoopChain f d.block_parents b.idx n)) := by
  obtain ⟨hP, h0, hB⟩ := cf_visit_ok_parts f d hAcc
  obtain ⟨hmain, hundef, hloop, hif⟩ :=
    phase_b_spec f d.block_parents f.blocks d.innermost_loop_distances hB
      hnd b hb
  refine ⟨hloop, ?_, ?_⟩
  · rintro (h | h)
    · exact hmain h
    · exact hundef h
  · intro htag
    rcases hif htag with ⟨k, hw, hget⟩ | ⟨hw, hget⟩
    · obtain ⟨n0, hc0, hk⟩ :=
        walk_dist_chain f d.block_parents _ _ _ _ hw
      refine ⟨?_, ?_, ?_⟩
      · intro n
        constructor
        · intro hsome
          rw [hget] at hsome
          have hkn : k = n + 1 := by injection hsome
          have : n0 = n := by omega
          exact this ▸ hc0
        · intro hc
          have hn0 : n0 = n := chain_unique hc0 hc
          rw [hget]
          congr 1
          omega
      · intro hnone
        rw [hget] at hnone
        cases hnone
      · intro hall
        exact absurd hc0 (hall n0)
    · have hno := walk_noLoop_no_chain f d.block_parents _ _ _ hw
      refine ⟨?_, fun _ => hno, fun _ => hget⟩
      intro n
      constructor
      · intro hsome
        rw [hget] at hsome
        cases hsome
      · intro hc
        exact absurd hc (hno n)

/-- C4 witness: for the concrete function `f_W4`, the `IfElse` block 2 sits
directly inside loop body 1, so the amended theorem forces its recorded
distance to be `1`. -/
theorem C4_amended_witness :
    assoc_get [((1 : BlockId), (0 : Nat)), (2, 1)] (2 : BlockId) =
      some 1 := by
  have h := C4_amended_innermost_loop_distance f_W4
    { block_parents := [(2, 1), (1, 0)],
      innermost_loop_distances := [(1, 0), (2, 1)] }
    (by decide) (by decide) b2_W4 (by decide)
  have hc : LoopChain f_W4 [(2, 1), (1, 0)] 2 0 :=
    .found 2 1 (by decide) (by decide)
  exact ((h.2.2 (by decide)).1 0).mpr hc

theorem filter_idx_append {α : Type} (φ : Nat → Bool) :
    ∀ (A B : List α) (i : Nat),
      filter_idx φ i (A ++ B) =
        filter_idx φ i A ++ filter_idx φ (i + A.length) B := by
  intro A
  induction A with
  | nil => intro B i; simp [filter_idx]
  | cons x xs ih =>
      intro B i
      have harith : i + 1 + xs.length = i + (xs.length + 1) := by omega
      by_cases h : φ i <;>
        simp [filter_idx, h, ih, harith]

theorem filter_idx_all_true {α : Type} (φ : Nat → Bool) :
    ∀ (l : List α) (i : Nat),
      (∀ k, k < l.length → φ (i + k) = true) → filter_idx φ i l = l := by
  intro l
  induction l with
  | nil => intro i _; rfl
  | cons x xs ih =>
      intro i h
      have h0 : φ i = true := by simpa using h 0 (by simp)
      have hrest : ∀ k, k < xs.length → φ (i + 1 + k) = true := by
        intro k hk
        have := h (k + 1) (by simp; omega)
        simpa [show i + (k + 1) = i + 1 + k by omega] using this
      simp [filter_idx, h0, ih _ hrest]

theorem filter_idx_all_false {α : Type} (φ : Nat → Bool) :
    ∀ (l : List α) (i : Nat),
      (∀ k, k < l.length → φ (i + k) = false) → filter_idx φ i l = [] := by
  intro l
  induction l with
  | nil => intro i _; rfl
  | cons x xs ih =>
      intro i h
      have h0 : φ i = false := by simpa using h 0 (by simp)
      have hrest : ∀ k, k < xs.length → φ (i + 1 + k) = false := by
        intro k hk
        have := h (k + 1) (by simp; omega)
        simpa [show i + (k + 1) = i + 1 + k by omega] using this
      simp [filter_idx, h0, ih _ hrest]

theorem filter_idx_congr {α : Type} (φ ψ : Nat → Bool) :
    ∀ (l : List α) (i j : Nat),
      (∀ k, k < l.length → φ (i + k) = ψ (j + k)) →
      filter_idx φ i l = filter_idx ψ j l := by
  intro l
  induction l with
  | nil => intro i j _; rfl
  | cons x xs ih =>
      intro i j h
      have h0 : φ i = ψ j := by simpa using h 0 (by simp)
      have hrest : ∀ k, k < xs.length → φ (i + 1 + k) = ψ (j + 1 + k) := by
        intro k hk
        have := h (k + 1) (by simp; omega)
        simpa [show i + (k + 1) = i + 1 + k by omega,
          show j + (k + 1) = j + 1 + k by omega] using this
      by_cases hc : φ i <;>
        simp [filter_idx, hc, ← h0, ih _ _ hrest]

theorem filter_idx_sublist_mono {α : Type} (φ ψ : Nat → Bool) :
    ∀ (l : List α) (i j : Nat),
      (∀ k, k < l.length → φ (i + k) = true → ψ (j + k) = true) →
      List.Sublist (filter_idx φ i l) (filter_idx ψ j l) := by
  intro l
  induction l with
  | nil => intro i j _; simp [filter_idx]
  | cons x xs ih =>
      intro i j h
      have hrest : ∀ k, k < xs.length → φ (i + 1 + k) = true →
          ψ (j + 1 + k) = true := by
        intro k hk hφ
        have := h (k + 1) (by simp; omega)
        rw [show i + (k + 1) = i + 1 + k by omega,
          show j + (k + 1) = j + 1 + k by omega] at this
        exact this hφ
      by_cases hφ : φ i
      · have hψ : ψ j = true := by simpa using h 0 (by simp) (by simpa using hφ)
        simpa [filter_idx, hφ, hψ] using (ih _ _ hrest).cons₂ x
      · by_cases hψ : ψ j
        · simpa [filter_idx, hφ, hψ] using (ih _ _ hrest).cons x
        · simpa [filter_idx, hφ, hψ] using ih _ _ hrest

theorem safe_idx_cons (r : RangeRepl) (rs : List RangeRepl) (i : Nat) :
    safe_idx (r :: rs) i =
      ((decide (i < r.start) || decide (r.stop ≤ i)) && safe_idx rs i) := by
  simp [safe_idx]

theorem safe_idx_eq_true (rs : List RangeRepl) (i : Nat) :
    safe_idx rs i = true ↔ ∀ r ∈ rs, i < r.start ∨ r.stop ≤ i := by
  simp [safe_idx]

theorem safe_idx_perm {cs cs' : List RangeRepl} (h : cs.Perm cs') (i : Nat) :
    safe_idx cs i = safe_idx cs' i := by
  by_cases hc : safe_idx cs i = true
  · rw [hc]
    symm
    rw [safe_idx_eq_true] at hc ⊢
    intro r hr
    exact hc r (h.mem_iff.mpr hr)
  · have hc' : ¬ safe_idx cs' i = true := by
      intro hh
      apply hc
      rw [safe_idx_eq_true] at hh ⊢
      intro r hr
      exact hh r (h.mem_iff.mp hr)
    rw [Bool.not_eq_true] at hc hc'
    rw [hc, hc']

/-- Two ranges share no index. -/
def ranges_disjoint (a b : RangeRepl) : Prop :=
  ∀ i, ¬ ((a.start ≤ i ∧ i < a.stop) ∧ (b.start ≤ i ∧ i < b.stop))

theorem ranges_disjoint_symm : Symmetric ranges_disjoint :=
  fun _ _ h i hi => h i ⟨hi.2, hi.1⟩

theorem range_indices_mem (s t i : Nat) :
    i ∈ range_indices s t ↔ s ≤ i ∧ i < t := by
  simp only [range_indices, List.mem_map, List.mem_range]
  constructor
  · rintro ⟨k, hk, rfl⟩
    omega
  · intro h
    exact ⟨i - s, by omega, by omega⟩

theorem insert_indices_spec :
    ∀ (l seen out : List Nat), insert_indices seen l = some out →
      (∀ i ∈ l, i ∉ seen) ∧ (∀ i, i ∈ out ↔ i ∈ seen ∨ i ∈ l) := by
  intro l
  induction l with
  | nil =>
      intro seen out h
      cases h
      exact ⟨fun i hi => absurd hi (List.not_mem_nil i),
        fun i => by simp⟩
  | cons x xs ih =>
      intro seen out h
      unfold insert_indices at h
      split at h
      · cases h
      · rename_i hx
        obtain ⟨h1, h2⟩ := ih (x :: seen) out h
        constructor
        · intro i hi
          rcases List.mem_cons.mp hi with rfl | hi
          · exact hx
          · intro hseen
            exact h1 i hi (List.mem_cons_of_mem _ hseen)
        · intro i
          rw [h2 i]
          constructor
          · rintro (hi | hi)
            · rcases List.mem_cons.mp hi with rfl | hi
              · exact Or.inr (List.mem_cons_self _ _)
              · exact Or.inl hi
            · exact Or.inr (List.mem_cons_of_mem _ hi)
          · rintro (hi | hi)
            · exact Or.inl (List.mem_cons_of_mem _ hi)
            · rcases List.mem_cons.mp hi with rfl | hi
              · exact Or.inl (List.mem_cons_self _ _)
              · exact Or.inr hi

theorem check_changes_spec :
    ∀ (cs : List RangeRepl) (seen out : List Nat),
      check_changes seen cs = some out →
      (∀ c ∈ cs, ∀ i, c.start ≤ i → i < c.stop → i ∉ seen) ∧
      List.Pairwise ranges_disjoint cs := by
  intro cs
  induction cs with
  | nil => intro seen out _; exact ⟨fun c hc => absurd hc (by simp), .nil⟩
  | cons c rest ih =>
      intro seen out h
      unfold check_changes at h
      split at h
      · cases h
      · rename_i seen1 hins
        obtain ⟨hfresh, hmem⟩ :=
          insert_indices_spec (range_indices c.start c.stop) seen seen1 hins
        obtain ⟨ih1, ih2⟩ := ih seen1 out h
        constructor
        · intro c' hc' i hi1 hi2
          rcases List.mem_cons.mp hc' with rfl | hc'
          · exact hfresh i ((range_indices_mem _ _ _).mpr ⟨hi1, hi2⟩)
          · intro hseen
            exact ih1 c' hc' i hi1 hi2 ((hmem i).mpr (Or.inl hseen))
        · refine List.Pairwise.cons ?_ ih2
          intro c' hc' i ⟨⟨ha1, ha2⟩, hb1, hb2⟩
          exact ih1 c' hc' i hb1 hb2
            ((hmem i).mpr (Or.inr ((range_indices_mem _ _ _).mpr ⟨ha1, ha2⟩)))

instance : IsTotal RangeRepl (fun a b => b.start ≤ a.start) :=
  ⟨fun a b => le_total b.start a.start⟩

instance : IsTrans RangeRepl (fun a b => b.start ≤ a.start) :=
  ⟨fun _ _ _ h1 h2 => le_trans h2 h1⟩

theorem sort_desc_sorted (cs : List RangeRepl) :
    List.Sorted (fun a b => b.start ≤ a.start) (sort_desc cs) :=
  List.sorted_insertionSort _ cs

theorem sort_desc_perm (cs : List RangeRepl) : (sort_desc cs).Perm cs :=
  List.perm_insertionSort _ cs

/-- Core preservation property of the back-to-front splice loop: with ranges
sorted by descending start, pairwise disjoint, each increasing and within the
body, the loop succeeds and every instruction outside all ranges survives in
order. -/
theorem apply_changes_preserves :
    ∀ (rs : List RangeRepl) (body : List Instr),
      List.Sorted (fun a b => b.start ≤ a.start) rs →
      List.Pairwise ranges_disjoint rs →
      (∀ r ∈ rs, r.start ≤ r.stop) →
      (∀ r ∈ rs, r.stop ≤ body.length) →
      ∃ body', apply_changes body rs = some body' ∧
        List.Sublist (filter_idx (safe_idx rs) 0 body) body' := by
  intro rs
  induction rs with
  | nil =>
      intro body _ _ _ _
      refine ⟨body, rfl, ?_⟩
      rw [filter_idx_all_true (safe_idx ([] : List RangeRepl)) body 0
        (fun _ _ => rfl)]
  | cons r rest ih =>
      intro body hsort hdisj hst hlen
      obtain ⟨hr_le, hsort'⟩ := List.sorted_cons.mp hsort
      have hdisj_head := (List.pairwise_cons.mp hdisj).1
      have hdisj' := (List.pairwise_cons.mp hdisj).2
      have hst_r : r.start ≤ r.stop := hst r (List.mem_cons_self _ _)
      have hlen_r : r.stop ≤ body.length := hlen r (List.mem_cons_self _ _)
      have hsplice : splice body r.start r.stop r.repl =
          some (body.take r.start ++ r.repl ++ body.drop r.stop) := by
        unfold splice
        rw [if_neg (by omega), if_neg (by omega)]
      set b1 := body.take r.start ++ r.repl ++ body.drop r.stop with hb1
      have hlenA : (body.take r.start).length = r.start := by
        simp [List.length_take]
        omega
      have hlb1 : b1.length = r.start + r.repl.length +
          (body.length - r.stop) := by
        simp [hb1, List.length_take, List.length_drop]
        omega
      have hlen' : ∀ r' ∈ rest, r'.stop ≤ b1.length := by
        intro r' hr'
        have hs' : r'.start ≤ r.start := hr_le r' hr'
        have hst' : r'.start ≤ r'.stop := hst r' (List.mem_cons_of_mem _ hr')
        have hl' : r'.stop ≤ body.length := hlen r' (List.mem_cons_of_mem _ hr')
        rcases Nat.lt_or_ge r'.start r'.stop with hne' | hge'
        · rcases Nat.lt_or_ge r.start r.stop with hner | hger
          · have hD : r'.stop ≤ r.start := by
              by_contra hcon
              push_neg at hcon
              exact hdisj_head r' hr' r.start (by omega)
            omega
          · omega
        · omega
      obtain ⟨body', happ, hsub⟩ := ih b1 hsort' hdisj'
        (fun r' h => hst r' (List.mem_cons_of_mem _ h)) hlen'
      refine ⟨body', ?_, ?_⟩
      · unfold apply_changes
        rw [hsplice]
        exact happ
      · have hbody : body = body.take r.start ++
            (((body.drop r.start).take (r.stop - r.start)) ++
              body.drop r.stop) := by
          have h1 : (body.drop r.start).take (r.stop - r.start) ++
              (body.drop r.start).drop (r.stop - r.start) =
                body.drop r.start := List.take_append_drop _ _
          have h2 : (body.drop r.start).drop (r.stop - r.start) =
              body.drop r.stop := by
            rw [List.drop_drop]
            congr 1
            omega
          rw [← h2, h1, List.take_append_drop]
        have hlenM : ((body.drop r.start).take (r.stop - r.start)).length =
            r.stop - r.start := by
          simp [List.length_take, List.length_drop]
          omega
        have key : List.Sublist (filter_idx (safe_idx (r :: rest)) 0 body)
            (filter_idx (safe_idx rest) 0 b1) := by
          conv_lhs => rw [hbody]
          rw [filter_idx_append, filter_idx_append, hlenA, hlenM, hb1,
            filter_idx_append, filter_idx_append, hlenA]
          have hA : filter_idx (safe_idx (r :: rest)) 0 (body.take r.start) =
              filter_idx (safe_idx rest) 0 (body.take r.start) := by
            apply filter_idx_congr
            intro k hk
            rw [hlenA] at hk
            rw [safe_idx_cons]
            have : decide (0 + k < r.start) = true := by
              simp
              omega
            rw [this]
            simp
          have hM : filter_idx (safe_idx (r :: rest)) (0 + r.start)
              ((body.drop r.start).take (r.stop - r.start)) = [] := by
            apply filter_idx_all_false
            intro k hk
            rw [hlenM] at hk
            rw [safe_idx_cons]
            have h1 : decide (0 + r.start + k < r.start) = false := by
              simp
            have h2 : decide (r.stop ≤ 0 + r.start + k) = false := by
              simp
              omega
            rw [h1, h2]
            rfl
          have hC : List.Sublist
              (filter_idx (safe_idx (r :: rest))
                (0 + r.start + (r.stop - r.start)) (body.drop r.stop))
              (filter_idx (safe_idx rest)
                (0 + r.start + r.repl.length) (body.drop r.stop)) := by
            apply filter_idx_sublist_mono
            intro k hk hφ
            rw [safe_idx_cons, Bool.and_eq_true] at hφ
            have hrest := hφ.2
            rw [safe_idx_eq_true] at hrest ⊢
            intro r' hr'
            have h1 := hrest r' hr'
            have hs' : r'.start ≤ r.start := hr_le r' hr'
            have hst' : r'.start ≤ r'.stop :=
              hst r' (List.mem_cons_of_mem _ hr')
            rcases Nat.lt_or_ge r'.start r'.stop with hne' | hge'
            · rcases Nat.lt_or_ge r.start r.stop with hner | hger
              · have hD : r'.stop ≤ r.start := by
                  by_contra hcon
                  push_neg at hcon
                  exact hdisj_head r' hr' r.start (by omega)
                omega
              · omega
            · omega
          rw [hA, hM]
          simp only [List.append_nil, List.nil_append, List.append_assoc,
            List.length_append, hlenA]
          refine List.Sublist.append_left ?_ _
          refine List.Sublist.trans ?_ (List.sublist_append_right _ _)
          have harith : 0 + (r.start + r.repl.length) =
              0 + r.start + r.repl.length := by omega
          rw [harith]
          exact hC
        exact key.trans hsub

/-- `rewrite_block_in` rewrites exactly the (unique) block with the given id,
leaving every other position untouched. -/
theorem rewrite_block_in_ok (bid : BlockId) (cs : List RangeRepl)
    (body0 : List Instr) :
    ∀ (bs : List InstrBlock), (bs.map (fun b => b.idx)).Nodup →
      ∀ b0 ∈ bs, b0.idx = bid → apply_changes b0.body cs = some body0 →
      ∃ bs1, rewrite_block_in bid cs bs = some bs1 ∧
        bs1.length = bs.length ∧
        (∀ j b, bs.get? j = some b →
          (b.idx ≠ bid → bs1.get? j = some b) ∧
          (b.idx = bid → bs1.get? j = some { b with body := body0 })) := by
  intro bs
  induction bs with
  | nil => intro _ b0 h0; cases h0
  | cons b rest ih =>
      intro hnd b0 hb0 hid happly
      rw [List.map_cons, List.nodup_cons] at hnd
      obtain ⟨hnotin, hndrest⟩ := hnd
      rcases List.mem_cons.mp hb0 with rfl | hb0
      · -- the head is the target block
        refine ⟨{ b0 with body := body0 } :: rest, ?_, by simp, ?_⟩
        · unfold rewrite_block_in
          rw [if_pos hid, happly]
          rfl
        · intro j b hget
          cases j with
          | zero =>
              cases hget
              exact ⟨fun hne => absurd hid hne, fun _ => rfl⟩
          | succ j =>
              simp only [List.get?_cons_succ] at hget ⊢
              have hbmem : b ∈ rest := List.get?_mem hget
              have hne : b.idx ≠ bid := by
                intro he
                exact hnotin (hid ▸ he ▸
                  List.mem_map_of_mem (fun x => x.idx) hbmem)
              exact ⟨fun _ => hget, fun he => absurd he hne⟩
      · -- the target block is in the tail
        have hblocked : b.idx ≠ bid := by
          intro he
          exact hnotin (he ▸ hid ▸
            List.mem_map_of_mem (fun x => x.idx) hb0)
        obtain ⟨bs1', hgo, hlen1, hspec⟩ :=
          ih hndrest b0 hb0 hid happly
        refine ⟨b :: bs1', ?_, by simp [hlen1], ?_⟩
        · unfold rewrite_block_in
          rw [if_neg hblocked, hgo]
          rfl
        · intro j bb hget
          cases j with
          | zero =>
              cases hget
              exact ⟨fun _ => rfl, fun he => absurd he hblocked⟩
          | succ j =>
              simp only [List.get?_cons_succ] at hget ⊢
              exact hspec j bb hget

/-- The full rewrite loop: with distinct plan keys and distinct block ids,
every listed block id present, and every per-block splice loop succeeding on
the original body, the loop succeeds; positions keep their id, tag, type and
metadata; unlisted blocks are untouched; and each listed block's body is the
result of its own splice loop applied to the original body. -/
theorem rewrite_go_all :
    ∀ (mds : List (BlockId × List RangeRepl)) (bs : List InstrBlock),
      (mds.map Prod.fst).Nodup →
      (bs.map (fun b => b.idx)).Nodup →
      (∀ bc ∈ mds, ∃ b ∈ bs, b.idx = bc.1) →
      (∀ bc ∈ mds, ∀ b ∈ bs, b.idx = bc.1 →
        ∃ body', apply_changes b.body bc.2 = some body') →
      ∃ bs', rewrite_go mds bs = some bs' ∧ bs'.length = bs.length ∧
        ∀ j b b', bs.get? j = some b → bs'.get? j = some b' →
          b'.idx = b.idx ∧ b'.tag = b.tag ∧ b'.block_ty = b.block_ty ∧
          b'.meta = b.meta ∧
          (b.idx ∉ mds.map Prod.fst → b' = b) ∧
          (∀ cs, (b.idx, cs) ∈ mds →
            apply_changes b.body cs = some b'.body) := by
  intro mds
  induction mds with
  | nil =>
      intro bs _ _ _ _
      refine ⟨bs, rfl, rfl, ?_⟩
      intro j b b' hget hget'
      rw [hget] at hget'
      cases hget'
      exact ⟨rfl, rfl, rfl, rfl, fun _ => rfl, fun cs hcs => by cases hcs⟩
  | cons bc rest ih =>
      intro bs hndk hndb hex happly
      rw [List.map_cons, List.nodup_cons] at hndk
      obtain ⟨hknotin, hndkrest⟩ := hndk
      obtain ⟨b0, hb0, hid0⟩ := hex bc (List.mem_cons_self _ _)
      obtain ⟨body0, hbody0⟩ :=
        happly bc (List.mem_cons_self _ _) b0 hb0 hid0
      obtain ⟨bs1, hrw, hlen1, hspec1⟩ :=
        rewrite_block_in_ok bc.1 bc.2 body0 bs hndb b0 hb0 hid0 hbody0
      have hmapeq : bs1.map (fun b => b.idx) = bs.map (fun b => b.idx) := by
        apply List.ext_get?
        intro j
        rw [List.get?_map, List.get?_map]
        cases hget : bs.get? j with
        | none =>
            have hnone : bs1.get? j = none := by
              rw [List.get?_eq_none] at hget ⊢
              omega
            rw [hnone]
        | some b =>
            by_cases hc : b.idx = bc.1
            · rw [(hspec1 j b hget).2 hc]
              rfl
            · rw [(hspec1 j b hget).1 hc]
      have hndb1 : (bs1.map (fun b => b.idx)).Nodup := by
        rw [hmapeq]
        exact hndb
      have hmem1 : ∀ b1 ∈ bs1, ∃ j b, bs.get? j = some b ∧
          bs1.get? j = some b1 := by
        intro b1 hb1
        obtain ⟨j, hj⟩ := List.get?_of_mem hb1
        cases hget : bs.get? j with
        | none =>
            rw [List.get?_eq_none] at hget
            have : j < bs1.length := (List.get?_eq_some.mp hj).1
            omega
        | some b => exact ⟨j, b, hget, hj⟩
      have hex' : ∀ bc' ∈ rest, ∃ b ∈ bs1, b.idx = bc'.1 := by
        intro bc' hbc'
        obtain ⟨b, hb, hidb⟩ := hex bc' (List.mem_cons_of_mem _ hbc')
        have hmm : b.idx ∈ bs1.map (fun b => b.idx) := by
          rw [hmapeq]
          exact List.mem_map_of_mem _ hb
        obtain ⟨b1, hb1, he⟩ := List.mem_map.mp hmm
        exact ⟨b1, hb1, he.trans hidb⟩
      have happly' : ∀ bc' ∈ rest, ∀ b1 ∈ bs1, b1.idx = bc'.1 →
          ∃ body', apply_changes b1.body bc'.2 = some body' := by
        intro bc' hbc' b1 hb1 hid1
        have hkne : bc'.1 ≠ bc.1 := by
          intro he
          exact hknotin (he ▸ List.mem_map_of_mem Prod.fst hbc')
        obtain ⟨j, b, hget, hget1⟩ := hmem1 b1 hb1
        by_cases hc : b.idx = bc.1
        · rw [(hspec1 j b hget).2 hc] at hget1
          cases hget1
          have : bc'.1 = bc.1 := by
            rw [← hid1]
            exact hc
          exact absurd this hkne
        · rw [(hspec1 j b hget).1 hc] at hget1
          cases hget1
          exact happly bc' (List.mem_cons_of_mem _ hbc') b1
            (List.get?_mem hget) hid1
      obtain ⟨bs', hgo', hlen', hspec'⟩ := ih bs1 hndkrest hndb1 hex' happly'
      refine ⟨bs', ?_, by omega, ?_⟩
      · unfold rewrite_go
        rw [hrw]
        exact hgo'
      · intro j b b' hget hget'
        have hj : j < bs.length := (List.get?_eq_some.mp hget).1
        cases hb1get : bs1.get? j with
        | none =>
            rw [List.get?_eq_none] at hb1get
            omega
        | some b1 =>
            have props := hspec' j b1 b' hb1get hget'
            by_cases hc : b.idx = bc.1
            · have hb1eq : b1 = { b with body := body0 } := by
                have := (hspec1 j b hget).2 hc
                rw [this] at hb1get
                cases hb1get
                rfl
              subst hb1eq
              obtain ⟨p1, p2, p3, p4, p5, p6⟩ := props
              refine ⟨p1, p2, p3, p4, ?_, ?_⟩
              · intro hnot
                exact absurd (by rw [hc]; exact List.mem_cons_self _ _) hnot
              · intro cs hcs
                rcases List.mem_cons.mp hcs with he | hmemr
                · -- the head entry rewrites this block
                  have hb0b : b0 = b :=
                    List.inj_on_of_nodup_map hndb hb0
                      (List.get?_mem hget) (by rw [hid0, hc])
                  have hcs2 : cs = bc.2 := by
                    have : (b.idx, cs).2 = bc.2 := by rw [he]
                    exact this
                  have hb'body : b'.body = body0 := by
                    have huntouched := p5 (by
                      intro hmm
                      exact hknotin (by
                        have : ({ b with body := body0 } :
                          InstrBlock).idx = b.idx := rfl
                        rw [← hc]
                        simpa [this] using hmm))
                    rw [huntouched]
                  rw [hcs2, hb'body, ← hb0b]
                  exact hbody0
                · -- a later entry cannot name this block again
                  have : b.idx ∈ rest.map Prod.fst := by
                    have := List.mem_map_of_mem Prod.fst hmemr
                    simpa using this
                  rw [hc] at this
                  exact absurd this hknotin
            · have hb1eq : b1 = b := by
                have := (hspec1 j b hget).1 hc
                rw [this] at hb1get
                cases hb1get
                rfl
              obtain ⟨p1, p2, p3, p4, p5, p6⟩ := props
              rw [hb1eq] at p1 p2 p3 p4 p5 p6
              refine ⟨p1, p2, p3, p4, ?_, ?_⟩
              · intro hnot
                apply p5
                intro hmm
                apply hnot
                simpa using Or.inr hmm
              · intro cs hcs
                rcases List.mem_cons.mp hcs with he | hmemr
                · have : b.idx = bc.1 := by
                    have : (b.idx, cs).1 = bc.1 := by rw [he]
                    exact this
                  exact absurd this hc
                · exact p6 cs hmemr

/-- C10 (amended): for every plan accepted by the pass constructor whose
ranges additionally satisfy `start ≤ stop`, on a function whose block bodies
are long enough for the ranges (plan keys and block ids distinct, as the
source's `HashMap`s guarantee, and each listed block id present as the pass's
visit step requires): an empty plan and a non-target function come back
unchanged, and on the target function the pass completes, every block keeps
its id, tag, type and metadata, unlisted blocks are untouched, and in every
rewritten block the instructions whose index lies outside all replaced ranges
survive — metadata included — in the same relative order. -/
theorem C10_amended_splice_preservation
    (target : Nat) (mods : List (BlockId × List RangeRepl))
    (p : InstrRewritePass) (f : Function)
    (hnew : instr_rewrite_pass_new target mods = some p)
    (hst : ∀ bc ∈ mods, ∀ r ∈ bc.2, r.start ≤ r.stop)
    (hlen : ∀ bc ∈ mods, ∀ r ∈ bc.2, ∀ b ∈ f.blocks, b.idx = bc.1 →
      r.stop ≤ b.body.length)
    (hbid : ∀ bc ∈ mods, ∃ b ∈ f.blocks, b.idx = bc.1)
    (hndk : (mods.map Prod.fst).Nodup)
    (hndb : (f.blocks.map (fun b => b.idx)).Nodup) :
    (mods = [] → rewrite_mutate_function p f = some f) ∧
    (f.idx ≠ target → rewrite_mutate_function p f = some f) ∧
    (f.idx = target → ∃ f', rewrite_mutate_function p f = some f' ∧
      f'.name = f.name ∧ f'.ty = f.ty ∧
      f'.all_locals_types = f.all_locals_types ∧ f'.idx = f.idx ∧
      f'.blocks.length = f.blocks.length ∧
      ∀ j b b', f.blocks.get? j = some b → f'.blocks.get? j = some b' →
        b'.idx = b.idx ∧ b'.tag = b.tag ∧ b'.block_ty = b.block_ty ∧
        b'.meta = b.meta ∧
        (b.idx ∉ mods.map Prod.fst → b' = b) ∧
        (∀ cs, (b.idx, cs) ∈ mods →
          apply_changes b.body (sort_desc cs) = some b'.body ∧
          List.Sublist (outside_instrs cs b.body) b'.body)) := by
  unfold instr_rewrite_pass_new at hnew
  split at hnew
  case isFalse => cases hnew
  case isTrue hall =>
    cases hnew
    set mds := mods.map (fun bc => (bc.1, sort_desc bc.2)) with hmds
    have hkeys : mds.map Prod.fst = mods.map Prod.fst := by
      simp [hmds, List.map_map, Function.comp]
    refine ⟨?_, ?_, ?_⟩
    · intro hempty
      subst hempty
      unfold rewrite_mutate_function
      split
      · rfl
      · rfl
    · intro hne
      unfold rewrite_mutate_function
      rw [if_pos hne]
    · intro hfeq
      have hdisjall : ∀ bc ∈ mods, List.Pairwise ranges_disjoint bc.2 := by
        intro bc hbc
        rw [List.all_eq_true] at hall
        have hsome := hall bc hbc
        rw [Option.isSome_iff_exists] at hsome
        obtain ⟨out, hout⟩ := hsome
        exact (check_changes_spec bc.2 [] out hout).2
      have hex' : ∀ bc' ∈ mds, ∃ b ∈ f.blocks, b.idx = bc'.1 := by
        intro bc' hbc'
        rw [hmds, List.mem_map] at hbc'
        obtain ⟨bc, hbc, rfl⟩ := hbc'
        exact hbid bc hbc
      have happly' : ∀ bc' ∈ mds, ∀ b ∈ f.blocks, b.idx = bc'.1 →
          ∃ body', apply_changes b.body bc'.2 = some body' := by
        intro bc' hbc' b hb hid
        rw [hmds, List.mem_map] at hbc'
        obtain ⟨bc, hbc, rfl⟩ := hbc'
        obtain ⟨body', happ, _⟩ := apply_changes_preserves (sort_desc bc.2)
          b.body (sort_desc_sorted bc.2)
          (((sort_desc_perm bc.2).pairwise_iff (fun hxy => ranges_disjoint_symm hxy)).mpr
            (hdisjall bc hbc))
          (fun r hr => hst bc hbc r ((sort_desc_perm bc.2).mem_iff.mp hr))
          (fun r hr => hlen bc hbc r ((sort_desc_perm bc.2).mem_iff.mp hr)
            b hb hid)
        exact ⟨body', happ⟩
      obtain ⟨bs', hgo, hlenbs, hspec⟩ := rewrite_go_all mds f.blocks
        (by rw [hkeys]; exact hndk) hndb hex' happly'
      refine ⟨{ f with blocks := bs' }, ?_, rfl, rfl, rfl, rfl, hlenbs, ?_⟩
      · unfold rewrite_mutate_function
        rw [if_neg (by simp [hfeq]), hgo]
        rfl
      · intro j b b' hget hget'
        obtain ⟨p1, p2, p3, p4, p5, p6⟩ := hspec j b b' hget hget'
        refine ⟨p1, p2, p3, p4, ?_, ?_⟩
        · intro hnot
          apply p5
          rw [hkeys]
          exact hnot
        · intro cs hcs
          have hmem : (b.idx, sort_desc cs) ∈ mds := by
            rw [hmds, List.mem_map]
            exact ⟨(b.idx, cs), hcs, rfl⟩
          have happb := p6 (sort_desc cs) hmem
          refine ⟨happb, ?_⟩
          obtain ⟨body'', happ2, hsub2⟩ := apply_changes_preserves
            (sort_desc cs) b.body (sort_desc_sorted cs)
            (((sort_desc_perm cs).pairwise_iff (fun hxy => ranges_disjoint_symm hxy)).mpr
              (hdisjall (b.idx, cs) hcs))
            (fun r hr => hst (b.idx, cs) hcs r
              ((sort_desc_perm cs).mem_iff.mp hr))
            (fun r hr => hlen (b.idx, cs) hcs r
              ((sort_desc_perm cs).mem_iff.mp hr) b (List.get?_mem hget) rfl)
          rw [happb] at happ2
          cases happ2
          have houts : outside_instrs cs b.body =
              filter_idx (safe_idx (sort_desc cs)) 0 b.body := by
            unfold outside_instrs
            apply filter_idx_congr
            intro k _
            exact safe_idx_perm (sort_desc_perm cs).symm _
          rw [houts]
          exact hsub2

/-- C10 witness: the amended theorem applied to the concrete plan
`{0 ↦ [1..2 → []]}` on the three-instruction block of `f_W10`. -/
theorem C10_amended_witness :
    (rewrite_mutate_function p_W10 f_W10).isSome = true := by
  obtain ⟨f', hf', _⟩ :=
    (C10_amended_splice_preservation 0 mods_W10 p_W10 f_W10 (by decide)
      (by decide) (by decide) (by decide) (by decide) (by decide)).2.2 rfl
  rw [hf']
  rfl

end SwarmIR
